import Mathlib

/-!
# Cherry: the switch state model (`Device`) and the application pipeline (`Manager`)

A shallow embedding of

* `cherryd/internal/network/device.go` (type `Device` and its methods),
* `northbound/manager.go` (type `Manager`, `register`, `checkDependencies`, `Enable`,
  `AddEventSender`, `String`),
* `cherryd/database/mysql.go` (`isDeadlock`, `query`), and
* `api/ui/network.go` (`addNetworkParam.UnmarshalJSON`),

followed by theorems about them.

Conventions of the embedding.

* A method with a pointer receiver becomes a function from the state before the call to the
  state after it (together with what the call returns and the calls it makes on collaborators).
* The mutexes are not modelled: every method body runs under the lock of its receiver, so method
  calls are atomic steps of a sequential model.
* A Go `map[K]V` is a list of key/value entries with pairwise distinct keys (`GoMap`).
* Pointers to objects that are shared (`*Port`, the `app.Processor` instances) are indices into
  an explicit object store kept next to the fields of the owner.
* `uint8` and `uint32` map keys are natural numbers; no arithmetic is ever done on them.
-/

namespace Cherry

/-! ## Go maps -/

/-- A Go map: the entries in some iteration order. Well-formed maps have distinct keys (`GoMap.WF`);
the operations below keep maps well-formed. -/
abbrev GoMap (K V : Type) := List (K × V)

namespace GoMap

variable {K V : Type}

/-- The Go expression `len(m)`. -/
def len (m : GoMap K V) : Nat := m.length

/-- The keys of the map, in iteration order. -/
def keys (m : GoMap K V) : List K := m.map Prod.fst

/-- The values of the map, in iteration order (`for _, v := range m`). -/
def values (m : GoMap K V) : List V := m.map Prod.snd

/-- Well-formedness of a Go map: no key occurs twice. -/
def WF (m : GoMap K V) : Prop := (keys m).Nodup

variable [DecidableEq K]

instance WF.decidable (m : GoMap K V) : Decidable (WF m) :=
  inferInstanceAs (Decidable (keys m).Nodup)

/-- The Go expression `v, ok := m[k]`: `none` stands for `ok == false`. -/
def get : GoMap K V → K → Option V
  | [], _ => none
  | (k', v) :: rest, k => if k' = k then some v else get rest k

/-- The Go statement `delete(m, k)`. -/
def delete (m : GoMap K V) (k : K) : GoMap K V :=
  m.filter (fun e => decide (e.1 ≠ k))

/-- The Go statement `m[k] = v`: replaces the entry of `k` when there is one, adds one otherwise. -/
def store : GoMap K V → K → V → GoMap K V
  | [], k, v => [(k, v)]
  | (k', v') :: rest, k, v => if k' = k then (k, v) :: rest else (k', v') :: store rest k v

end GoMap

/-! ## `device.go` -/

/-- The struct `Descriptions` of `device.go`. -/
structure Descriptions where
  Manufacturer : String
  Hardware : String
  Software : String
  Serial : String
  Description : String
deriving DecidableEq, Repr

/-- The struct `Features` of `device.go`. -/
structure Features where
  DPID : Nat
  NumBuffers : Nat
  NumTables : Nat
deriving DecidableEq, Repr

/-- Modelled from the spec: the type `Port` (declared outside `device.go`): "back-reference to its
owning Device", "port number (stable identifier within the device)" and "a replaceable value
snapshot of port attributes". The back-reference is kept as the owner's identifier; the value is
absent until the first `SetValue`. -/
structure Port (V : Type) where
  device : String
  number : Nat
  value : Option V
deriving DecidableEq, Repr

/-- The struct `Device`. `W` is `trans.Writer` (a non-nil message sink), `F` is
`openflow.Factory` (a non-nil factory; the nil interface value is `none`) and `V` is
`openflow.Port`. The fields `mutex`, `log` and `finder` play no part in the methods modelled here;
the calls made on `watcher` are returned by the method that makes them. `portObjects` is the store
of the `Port` objects allocated by this device: a `*Port` is an index into it. -/
structure Device (W F V : Type) where
  id : String
  controllers : GoMap Nat W
  descriptions : Descriptions
  features : Features
  ports : GoMap Nat Nat
  flowTableID : Nat
  factory : Option F
  portObjects : List (Port V)

/-- The calls a `Device` makes on its `Watcher`; the argument is the device, named by its id. -/
inductive WatcherCall where
  | DeviceRemoved (id : String)
deriving DecidableEq, Repr

/-- The values of type `error` that `SendMessage` can return: the error it creates itself when
connection 0 is absent, or whatever error the sink's `Write` returned. -/
inductive SendError (E : Type) where
  | notFoundMain
  | fromWrite (e : E)
deriving DecidableEq, Repr

/-- What a `SendMessage` call produces: the device afterwards, the returned `error` (`none` is
`nil`) and the `Write` calls made, in order, each as (connection id, sink, payload). -/
structure SendResult (W F V M E : Type) where
  device : Device W F V
  err : Option (SendError E)
  writes : List (Nat × W × M)

section DeviceOps

variable {W F V M E : Type}

/-- The constructor `NewDevice`: empty maps, zero values everywhere else. -/
def NewDevice (id : String) : Device W F V :=
  { id := id
    controllers := []
    descriptions := ⟨"", "", "", "", ""⟩
    features := ⟨0, 0, 0⟩
    ports := []
    flowTableID := 0
    factory := none
    portObjects := [] }

/-- The method `Device.ID`. -/
def ID (r : Device W F V) : String := r.id

/-- The method `Device.Factory`. -/
def Factory (r : Device W F V) : Option F := r.factory

/-- The method `Device.SetFactory`: `if r.factory != nil { return }; r.factory = f`. -/
def SetFactory (r : Device W F V) (f : Option F) : Device W F V :=
  match r.factory with
  | some _ => r
  | none => { r with factory := f }

/-- The method `Device.AddController`: `r.controllers[id] = c`. -/
def AddController (r : Device W F V) (id : Nat) (c : W) : Device W F V :=
  { r with controllers := GoMap.store r.controllers id c }

/-- The method `Device.RemoveController`: deletes the entry, takes `nCtrls := len(r.controllers)`
and, when `nCtrls == 0`, calls `r.watcher.DeviceRemoved(r)`. -/
def RemoveController (r : Device W F V) (id : Nat) : Device W F V × List WatcherCall :=
  let r1 : Device W F V := { r with controllers := GoMap.delete r.controllers id }
  let nCtrls := GoMap.len r1.controllers
  if nCtrls = 0 then (r1, [WatcherCall.DeviceRemoved r1.id]) else (r1, [])

/-- The method `Device.Descriptions`. -/
def getDescriptions (r : Device W F V) : Descriptions := r.descriptions

/-- The method `Device.SetDescriptions`. -/
def SetDescriptions (r : Device W F V) (d : Descriptions) : Device W F V :=
  { r with descriptions := d }

/-- The method `Device.Features`. -/
def getFeatures (r : Device W F V) : Features := r.features

/-- The method `Device.SetFeatures`. -/
def SetFeatures (r : Device W F V) (f : Features) : Device W F V :=
  { r with features := f }

/-- The method `Device.Port`: `r.ports[num]`, `none` being the nil pointer. -/
def getPort (r : Device W F V) (num : Nat) : Option Nat := GoMap.get r.ports num

/-- The method `Device.Ports`: the pointers stored in the port table, in iteration order. -/
def Ports (r : Device W F V) : List Nat := GoMap.values r.ports

/-- Dereferencing a `*Port` of this device. -/
def deref (r : Device W F V) (port : Nat) : Option (Port V) := r.portObjects[port]?

/-- Modelled from the spec: the constructor `NewPort(d, num)` (declared outside `device.go`)
creates a Port owned by `d` with the given number and no value yet. -/
def NewPort (d : Device W F V) (num : Nat) : Port V :=
  { device := d.id, number := num, value := none }

/-- Modelled from the spec: the method `Port.SetValue` (declared outside `device.go`) replaces
"the value snapshot in place". -/
def Port.SetValue (port : Port V) (p : V) : Port V :=
  { port with value := some p }

/-- The method `Device.setPort`: allocates a new Port, sets its value and stores the pointer under
`num`. The new object gets the first unused index of the object store. -/
def setPort (r : Device W F V) (num : Nat) (p : V) : Device W F V :=
  let port := r.portObjects.length
  { r with
    portObjects := r.portObjects ++ [(NewPort r num).SetValue p]
    ports := GoMap.store r.ports num port }

/-- The method `Device.AddPort`. -/
def AddPort (r : Device W F V) (num : Nat) (p : V) : Device W F V :=
  setPort r num p

/-- The method `Device.UpdatePort`: `port := r.ports[num]`; when `port == nil` it calls `setPort`,
otherwise `port.SetValue(p)` on the existing object. -/
def UpdatePort (r : Device W F V) (num : Nat) (p : V) : Device W F V :=
  match GoMap.get r.ports num with
  | none => setPort r num p
  | some port =>
    -- a pointer held by the table refers to an allocated object; `none` cannot arise in Go
    match r.portObjects[port]? with
    | none => r
    | some obj => { r with portObjects := r.portObjects.set port (obj.SetValue p) }

/-- The method `Device.FlowTableID`. -/
def FlowTableID (r : Device W F V) : Nat := r.flowTableID

/-- The method `Device.SetFlowTableID`. -/
def SetFlowTableID (r : Device W F V) (id : Nat) : Device W F V :=
  { r with flowTableID := id }

/-- The method `Device.SendMessage`. `Write c msg` is the result of the call `c.Write(msg)` on
the sink `c` (`none` is `nil`). -/
def SendMessage (Write : W → M → Option E) (r : Device W F V) (msg : M) :
    SendResult W F V M E :=
  match GoMap.get r.controllers 0 with
  | none => { device := r, err := some SendError.notFoundMain, writes := [] }
  | some c => { device := r, err := (Write c msg).map SendError.fromWrite, writes := [(0, c, msg)] }

/-- One call of `AddController` or `RemoveController`. -/
inductive CtrlCall (W : Type) where
  | add (id : Nat) (c : W)
  | remove (id : Nat)

/-- Runs one controller call; returns the device afterwards and the watcher calls made. -/
def CtrlCall.run (r : Device W F V) : CtrlCall W → Device W F V × List WatcherCall
  | CtrlCall.add id c => (AddController r id c, [])
  | CtrlCall.remove id => RemoveController r id

/-- Runs a sequence of controller calls, collecting all watcher calls in order. -/
def runCtrlCalls (r : Device W F V) : List (CtrlCall W) → Device W F V × List WatcherCall
  | [] => (r, [])
  | c :: cs =>
    let s := c.run r
    let t := runCtrlCalls s.1 cs
    (t.1, s.2 ++ t.2)

/-- One call of `AddPort` or `UpdatePort`. -/
inductive PortCall (V : Type) where
  | add (num : Nat) (p : V)
  | update (num : Nat) (p : V)

/-- The port number a port call is about. -/
def PortCall.num : PortCall V → Nat
  | PortCall.add n _ => n
  | PortCall.update n _ => n

/-- The value a port call carries. -/
def PortCall.val : PortCall V → V
  | PortCall.add _ p => p
  | PortCall.update _ p => p

/-- Runs one port call. -/
def PortCall.run (r : Device W F V) : PortCall V → Device W F V
  | PortCall.add n p => AddPort r n p
  | PortCall.update n p => UpdatePort r n p

/-- Runs a sequence of port calls, first call first. -/
def runPortCalls (r : Device W F V) (cs : List (PortCall V)) : Device W F V :=
  cs.foldl PortCall.run r

/-- The value carried by the latest call about port number `num`, if there is such a call. -/
def latestValue (cs : List (PortCall V)) (num : Nat) : Option V :=
  (cs.reverse.find? (fun c => decide (c.num = num))).map PortCall.val

/-- The Port objects behind the pointers returned by `Ports()`, in the same order. -/
def PortsObjects (r : Device W F V) : List (Option (Port V)) :=
  (Ports r).map (deref r)

/-- The port table of `r` reflects the port calls `cs`: its keys are distinct and are the port
numbers used in `cs`, and the entry of a number refers to an object owned by `r`, carrying that
number and the value of the latest call for it. -/
def PortsAgree (r : Device W F V) (cs : List (PortCall V)) : Prop :=
  GoMap.WF r.ports ∧
  (∀ n a, (n, a) ∈ r.ports →
    deref r a = some { device := r.id, number := n, value := latestValue cs n }) ∧
  (∀ n, n ∈ GoMap.keys r.ports ↔ ∃ c ∈ cs, c.num = n)

end DeviceOps

/-! ## `manager.go` -/

/-- Modelled from the spec: an `app.Processor` instance (the interface and its implementations
are declared outside `manager.go`). "Every pipeline member exposes: a case-insensitive `Name`; an
`Init` hook [...]; a `Dependencies` list of names that must already be enabled; a
`Next`/`SetNext` link pair for chain traversal". `initResult k` tells whether the call of `Init`
that follows `k` earlier calls on this instance succeeds (returns `nil`); `initCalls` counts the
calls of `Init` made so far; `next` is the link set by `SetNext` (`none`: no successor). -/
structure Processor where
  name : String
  dependencies : List String
  initResult : Nat → Bool
  initCalls : Nat
  next : Option Nat

/-- Modelled from the spec: what a constructor such as `discovery.New(db)` (declared outside
`manager.go`) is given: the name, the dependency list and the behaviour of `Init`. -/
structure AppSpec where
  name : String
  dependencies : List String
  initResult : Nat → Bool

/-- Modelled from the spec: a constructor such as `discovery.New(db)` returns a fresh instance:
`Init` not yet called, no successor. -/
def AppSpec.New (s : AppSpec) : Processor :=
  { name := s.name, dependencies := s.dependencies, initResult := s.initResult,
    initCalls := 0, next := none }

/-- Modelled from the spec: the method `Processor.Init`; returns the instance afterwards and
whether the call succeeded. -/
def Processor.Init (p : Processor) : Processor × Bool :=
  ({ p with initCalls := p.initCalls + 1 }, p.initResult p.initCalls)

/-- Modelled from the spec: the method `Processor.SetNext`. -/
def Processor.SetNext (p : Processor) (app : Nat) : Processor :=
  { p with next := some app }

/-- Modelled from the spec: the method `Processor.Next`, `none` standing for `ok == false`. -/
def Processor.Next (p : Processor) : Option Nat := p.next

/-- The struct `application`; `inst` is the field `instance`, a reference to a Processor. -/
structure application where
  inst : Nat
  enabled : Bool
deriving DecidableEq, Repr

/-- The struct `Manager`. `head` and `tail` are references to Processors (`none` is `nil`);
`objects` is the store of the Processor instances, a reference being an index into it. The fields
`mutex` and `db` play no part in the methods modelled here. -/
structure Manager where
  apps : GoMap String application
  head : Option Nat
  tail : Option Nat
  objects : List Processor

/-- The values of type `error` that `Enable` returns. -/
inductive EnableError where
  /-- The error `unknown application: appName`. -/
  | unknownApplication (appName : String)
  /-- The error of `Init`, wrapped with "initializing application". -/
  | initializing
  /-- The error `name application is not loaded`, wrapped with "checking dependencies". -/
  | checkingDependencies (name : String)
deriving DecidableEq, Repr

section ManagerOps

/- `ToUpper` stands for `strings.ToUpper` throughout: the definitions and theorems hold for
whatever function it is. -/
variable (ToUpper : String → String)

/-- The method `Manager.register`. The key is `strings.ToUpper(app.Name())`. `app` is a reference
to a stored instance (a call on a nil interface would stop the program; `NewManager` never makes
one). -/
def register (r : Manager) (app : Nat) : Manager :=
  match r.objects[app]? with
  | none => r
  | some p => { r with apps := GoMap.store r.apps (ToUpper p.name) { inst := app, enabled := false } }

/-- The constructor `NewManager`: creates the instances with their constructors and registers
them in order. The six applications of the source are the parameter `specs`. -/
def NewManager (specs : List AppSpec) : Manager :=
  (List.range specs.length).foldl (register ToUpper)
    { apps := [], head := none, tail := none, objects := specs.map AppSpec.New }

/-- The method `Manager.checkDependencies`; returns the first name that is not registered or not
enabled (the error names it), or `none` for `nil`. -/
def checkDependencies (r : Manager) : List String → Option String
  | [] => none
  | name :: rest =>
    match GoMap.get r.apps (ToUpper name) with
    | none => some name
    | some app => if app.enabled then checkDependencies r rest else some name

/-- The method `Manager.Enable`. The outer `none` is a run-time panic (a method call through a nil
reference); otherwise the manager after the call and the returned `error` (`none` is `nil`). -/
def Enable (r : Manager) (appName : String) : Option (Manager × Option EnableError) :=
  match GoMap.get r.apps (ToUpper appName) with
  | none => some (r, some (EnableError.unknownApplication appName))
  | some v =>
    if v.enabled then some (r, none)
    else
      match r.objects[v.inst]? with
      | none => none
      | some app =>
        -- `app.Init()`
        let r1 : Manager := { r with objects := r.objects.set v.inst app.Init.1 }
        if app.Init.2 = false then some (r1, some EnableError.initializing)
        else
          match checkDependencies ToUpper r1 app.dependencies with
          | some name => some (r1, some (EnableError.checkingDependencies name))
          | none =>
            -- `v.enabled = true`, through the pointer held by the map
            let r2 : Manager :=
              { r1 with apps := GoMap.store r1.apps (ToUpper appName) { v with enabled := true } }
            match r2.head with
            | none => some ({ r2 with head := some v.inst, tail := some v.inst }, none)
            | some _ =>
              -- `r.tail.SetNext(app)`
              match r2.tail with
              | none => none
              | some t =>
                match r2.objects[t]? with
                | none => none
                | some tp =>
                  some ({ r2 with objects := r2.objects.set t (tp.SetNext v.inst),
                                  tail := some v.inst }, none)

/-- The method `Manager.AddEventSender`: the manager afterwards and the list of
`sender.SetEventListener` calls it makes, each given by its argument. -/
def AddEventSender (r : Manager) : Manager × List Nat :=
  match r.head with
  | none => (r, [])
  | some h => (r, [h])

/-- The loop of the method `Manager.String`: the instances visited from `app` on, following
`Next`. `none` when the loop has not ended within `fuel` visits, or visits a nil reference. -/
def walk (objects : List Processor) : Nat → Option Nat → Option (List Nat)
  | _, none => some []
  | 0, some _ => none
  | fuel + 1, some a =>
    match objects[a]? with
    | none => none
    | some p => (walk objects fuel p.Next).map (fun l => a :: l)

/-- The chain of a manager: the instances visited by `String` from `head`, when the walk ends
within as many visits as there are instances. -/
def chain (r : Manager) : Option (List Nat) :=
  walk r.objects r.objects.length r.head

/-- The record of a run of `Enable` calls: the manager afterwards, the returned errors in call
order, and, for every call that returned `nil`, the instance registered under the name of the
call, in call order. -/
structure EnableRun where
  manager : Manager
  errors : List (Option EnableError)
  succeeded : List Nat

/-- One more `Enable` call in a run; `none` when the call, or an earlier one, panics. -/
def enableStep (run : Option EnableRun) (appName : String) : Option EnableRun :=
  match run with
  | none => none
  | some s =>
    match Enable ToUpper s.manager appName with
    | none => none
    | some (r1, e) =>
      some
        { manager := r1
          errors := s.errors ++ [e]
          succeeded :=
            match e, GoMap.get s.manager.apps (ToUpper appName) with
            | none, some v => s.succeeded ++ [v.inst]
            | _, _ => s.succeeded }

/-- Runs a sequence of `Enable` calls on `r`, first call first. -/
def runEnables (r : Manager) (appNames : List String) : Option EnableRun :=
  appNames.foldl (enableStep ToUpper) (some { manager := r, errors := [], succeeded := [] })

/-- The dependency name `name` is unmet in `r`: it is (after upper-casing) not registered, or
registered but not enabled. -/
def unmet (r : Manager) (name : String) : Prop :=
  GoMap.get r.apps (ToUpper name) = none ∨
    ∃ w, GoMap.get r.apps (ToUpper name) = some w ∧ w.enabled = false

/-- The registrations agree with the instances: every entry refers to a stored instance and is
filed under the upper-cased name of that instance. -/
def RegistryOK (r : Manager) : Prop :=
  GoMap.WF r.apps ∧
  ∀ k v, (k, v) ∈ r.apps → ∃ p, r.objects[v.inst]? = some p ∧ ToUpper p.name = k

end ManagerOps

/-- The list without repetitions: every element at the place of its first occurrence. -/
def firstOccurrences (l : List Nat) : List Nat :=
  l.foldl (fun acc a => if a ∈ acc then acc else acc ++ [a]) []

/-- The `next` link of the instance behind reference `a`: `none` when `a` refers to nothing,
`some none` when the instance has no successor. -/
def nextOf (objects : List Processor) (a : Nat) : Option (Option Nat) :=
  (objects[a]?).map Processor.next

/-- The instances of `l` are linked in this order: each one's `next` is the one after it, and the
last one has no successor. -/
def Linked (objects : List Processor) : List Nat → Prop
  | [] => True
  | [a] => nextOf objects a = some none
  | a :: b :: rest => nextOf objects a = some (some b) ∧ Linked objects (b :: rest)

/-- The manager `r` holds the chain `l`: `head` and `tail` are the ends of `l`, the instances of
`l` are distinct, registered and linked in this order, a registered application is enabled
exactly when its instance is in `l`, and an instance outside `l` has no successor. -/
def HoldsChain (r : Manager) (l : List Nat) : Prop :=
  r.head = l.head? ∧ r.tail = l.getLast? ∧ l.Nodup ∧ Linked r.objects l ∧
  (∀ k v, (k, v) ∈ r.apps → (v.enabled = true ↔ v.inst ∈ l)) ∧
  (∀ a ∈ l, ∃ k v, (k, v) ∈ r.apps ∧ v.inst = a) ∧
  (∀ a, a ∉ l → a < r.objects.length → nextOf r.objects a = some none)

/-- Upper-casing of the ASCII letters, an instance of `ToUpper` used in examples. -/
def asciiUpper (s : String) : String :=
  String.mk (s.data.map (fun c => if 97 ≤ c.toNat ∧ c.toNat ≤ 122 then Char.ofNat (c.toNat - 32) else c))


/-- Two applications used in examples: `a` without dependencies and `b` depending on it. -/
def exampleSpecs : List AppSpec :=
  [⟨"a", [], fun _ => true⟩, ⟨"b", ["A"], fun _ => true⟩]

/-- The manager of the two example applications, none enabled. -/
def exampleManager : Manager := NewManager asciiUpper exampleSpecs

/-- The manager of the two example applications after `Enable("a")`. -/
def exampleManagerA : Manager :=
  { apps := [("A", ⟨0, true⟩), ("B", ⟨1, false⟩)]
    head := some 0
    tail := some 0
    objects := [⟨"a", [], fun _ => true, 1, none⟩, ⟨"b", ["A"], fun _ => true, 0, none⟩] }

/-! ## Runs of `Device` method calls -/

section DeviceRuns

variable {W F V : Type}

/-- One call of a `Device` method that takes the write lock. -/
inductive DeviceCall (W F V : Type) where
  | setFactory (f : Option F)
  | addController (id : Nat) (c : W)
  | removeController (id : Nat)
  | setDescriptions (d : Descriptions)
  | setFeatures (f : Features)
  | addPort (num : Nat) (p : V)
  | updatePort (num : Nat) (p : V)
  | setFlowTableID (id : Nat)

/-- Runs one method call; returns the device afterwards and the watcher calls made. Only
`RemoveController` has a call on `r.watcher` in its body. -/
def DeviceCall.run (r : Device W F V) : DeviceCall W F V → Device W F V × List WatcherCall
  | DeviceCall.setFactory f => (SetFactory r f, [])
  | DeviceCall.addController id c => (AddController r id c, [])
  | DeviceCall.removeController id => RemoveController r id
  | DeviceCall.setDescriptions d => (SetDescriptions r d, [])
  | DeviceCall.setFeatures f => (SetFeatures r f, [])
  | DeviceCall.addPort num p => (AddPort r num p, [])
  | DeviceCall.updatePort num p => (UpdatePort r num p, [])
  | DeviceCall.setFlowTableID id => (SetFlowTableID r id, [])

/-- The call registers a sink under connection id 0. -/
def DeviceCall.addsMain : DeviceCall W F V → Bool
  | DeviceCall.addController 0 _ => true
  | _ => false

/-- Runs a sequence of method calls, first call first, collecting the watcher calls. -/
def runDeviceCalls (r : Device W F V) : List (DeviceCall W F V) → Device W F V × List WatcherCall
  | [] => (r, [])
  | c :: cs =>
    let s := c.run r
    let t := runDeviceCalls s.1 cs
    (t.1, s.2 ++ t.2)

end DeviceRuns

/-! ## Counting `Init` calls over runs of `Enable` -/

/-- The kind of an `Enable` error, without the name it carries. -/
inductive ErrorKind where
  | unknownApplication
  | initializing
  | checkingDependencies
deriving DecidableEq, Repr

/-- The kind of an `Enable` error. -/
def EnableError.kind : EnableError → ErrorKind
  | EnableError.unknownApplication _ => ErrorKind.unknownApplication
  | EnableError.initializing => ErrorKind.initializing
  | EnableError.checkingDependencies _ => ErrorKind.checkingDependencies

/-- The number of `Init` calls made so far on the instance behind reference `a`. -/
def initCallsOf (objects : List Processor) (a : Nat) : Option Nat :=
  (objects[a]?).map Processor.initCalls

/-- The results of the `Enable` calls whose upper-cased name is `k`, in call order, given the
names and the results of all calls of a run. -/
def outcomesFor (ToUpper : String → String) (k : String) (appNames : List String)
    (errors : List (Option EnableError)) : List (Option EnableError) :=
  ((appNames.zip errors).filter (fun x => decide (ToUpper x.1 = k))).map Prod.snd

/-- The number of calls up to and including the first that returned `nil` (all of them when
none did). -/
def attemptsUntilSuccess : List (Option EnableError) → Nat
  | [] => 0
  | none :: _ => 1
  | some _ :: rest => attemptsUntilSuccess rest + 1

/-! ## `mysql.go` -/

/-- The values of type `error` that `query` sees: a `*mysql.MySQLError` with its field `Number`,
or an error of any other type. -/
inductive DBError where
  | MySQLError (Number : Nat)
  | other (text : String)
deriving DecidableEq, Repr

/-- The constant `deadlockErrCode`. -/
def deadlockErrCode : Nat := 1213

/-- The constant `maxDeadlockRetry`. -/
def maxDeadlockRetry : Nat := 5

/-- The function `isDeadlock`. -/
def isDeadlock : DBError → Bool
  | DBError.MySQLError n => decide (n = deadlockErrCode)
  | DBError.other _ => false

/-- The loop of the function `query`, started with the given value of `deadlockRetry` after
`calls` calls of `f`. `f k` is what the call of `f` that follows `k` earlier calls returns
(`none` is `nil`). Returns the returned error and the total number of calls of `f`; `none` when
the loop has not ended within `fuel` iterations. -/
def queryLoop (f : Nat → Option DBError) : Nat → Nat → Nat → Option (Option DBError × Nat)
  | 0, _, _ => none
  | fuel + 1, deadlockRetry, calls =>
    match f calls with
    | none => some (none, calls + 1)
    | some err =>
      if !isDeadlock err || decide (deadlockRetry ≥ maxDeadlockRetry) then
        some (some err, calls + 1)
      else queryLoop f fuel (deadlockRetry + 1) (calls + 1)

/-- The function `query`: the loop started with `deadlockRetry := 0`. -/
def query (f : Nat → Option DBError) (fuel : Nat) : Option (Option DBError × Nat) :=
  queryLoop f fuel 0 0

/-! ## `network.go` -/

/-- The anonymous struct that `addNetworkParam.UnmarshalJSON` decodes into. `Mask` is a
`uint8`. -/
structure addNetworkJSON where
  SessionID : String
  Address : String
  Mask : Nat
deriving DecidableEq, Repr

/-- The struct `addNetworkParam`. A `net.IP` and a `net.IPMask` are byte slices; `none` is the
nil slice. -/
structure addNetworkParam where
  SessionID : String
  Address : Option (List Nat)
  Mask : Option (List Nat)
deriving DecidableEq, Repr

/-- The errors that `addNetworkParam.UnmarshalJSON` returns; `J` is the error type of
`json.Unmarshal`. -/
inductive UnmarshalError (J : Type) where
  | json (e : J)
  | invalidSessionID
  | invalidNetworkAddress (address : String)
  | invalidNetworkMask (mask : Nat)
deriving DecidableEq, Repr

/-- The standard library's `v4InV6Prefix`: the first twelve bytes of an IPv4 address in its
16-byte form. -/
def v4InV6Prefix : List Nat := [0, 0, 0, 0, 0, 0, 0, 0, 0, 0, 0xff, 0xff]

/-- The loop of the standard library's `net.CIDRMask`: `l` bytes of which the first `n` bits
are set. -/
def cidrBytes : Nat → Nat → List Nat
  | 0, _ => []
  | l + 1, n =>
    if n ≥ 8 then 0xff :: cidrBytes l (n - 8)
    else (0xff - (0xff >>> n)) :: cidrBytes l 0

/-- The standard library's `net.CIDRMask(ones, bits)`; `none` is the nil mask. -/
def CIDRMask (ones bits : Nat) : Option (List Nat) :=
  if bits ≠ 32 ∧ bits ≠ 128 then none
  else if ones > bits then none
  else some (cidrBytes (bits / 8) ones)

/-- The standard library's `allFF`. -/
def allFF (b : List Nat) : Bool := b.all (fun c => decide (c = 0xff))

/-- The standard library's method `net.IP.Mask`: a 16-byte mask starting with twelve `0xff` is
cut to 4 bytes for a 4-byte address, an IPv4 address in 16-byte form is cut to 4 bytes for a
4-byte mask, and the result is nil when the lengths then differ. -/
def ipMask (ip mask : List Nat) : Option (List Nat) :=
  let mask1 := if mask.length = 16 ∧ ip.length = 4 ∧ allFF (mask.take 12) = true
    then mask.drop 12 else mask
  let ip1 := if mask1.length = 4 ∧ ip.length = 16 ∧ ip.take 12 = v4InV6Prefix
    then ip.drop 12 else ip
  if ip1.length ≠ mask1.length then none
  else some (List.zipWith (fun a b => a &&& b) ip1 mask1)

/-- The method `addNetworkParam.UnmarshalJSON`. `jsonUnmarshal` stands for the call of
`json.Unmarshal` on the anonymous struct and `ParseIP` for `net.ParseIP` (`none` is nil).
Returns the receiver after a call that returns `nil`, or the returned error. -/
def UnmarshalJSON {J : Type} (jsonUnmarshal : String → Except J addNetworkJSON)
    (ParseIP : String → Option (List Nat)) (data : String) :
    Except (UnmarshalError J) addNetworkParam :=
  match jsonUnmarshal data with
  | Except.error e => Except.error (UnmarshalError.json e)
  | Except.ok v =>
    if v.SessionID.utf8ByteSize ≠ 64 then Except.error UnmarshalError.invalidSessionID
    else
      match ParseIP v.Address with
      | none => Except.error (UnmarshalError.invalidNetworkAddress v.Address)
      | some addr =>
        if v.Mask < 24 ∨ v.Mask > 30 then
          Except.error (UnmarshalError.invalidNetworkMask v.Mask)
        else
          let mask := CIDRMask v.Mask 32
          Except.ok
            { SessionID := v.SessionID
              Mask := mask
              Address := ipMask addr (mask.getD []) }

/-- A session id of 64 bytes, used in examples. -/
def exampleSessionID : String := String.mk (List.replicate 64 'a')

/-- A request body used in examples: an IPv6 address with prefix length 24. -/
def examplePayload : String :=
  "\x7b\"session_id\": \"" ++ exampleSessionID ++ "\", \"address\": \"::1\", \"mask\": 24\x7d"

/-- What `json.Unmarshal` gives on the example request body. -/
def exampleUnmarshal (data : String) : Except String addNetworkJSON :=
  if data = examplePayload then
    Except.ok { SessionID := exampleSessionID, Address := "::1", Mask := 24 }
  else Except.error "unexpected end of JSON input"

/-- What `net.ParseIP` gives on the addresses used in examples: the 16-byte forms of `::1` and
of `10.0.0.77`. -/
def exampleParseIP (s : String) : Option (List Nat) :=
  if s = "::1" then some (List.replicate 15 0 ++ [1])
  else if s = "10.0.0.77" then some (v4InV6Prefix ++ [10, 0, 0, 77])
  else none

end Cherry

/-! ## Lemmas about Go maps -/

namespace Cherry

namespace GoMap

variable {K V : Type}

theorem length_le_one_of_keys_eq (m : GoMap K V) (k : K) (hwf : WF m)
    (h : ∀ k' ∈ keys m, k' = k) : m.length ≤ 1 := by
  match m, hwf, h with
  | [], _, _ => simp
  | [_], _, _ => simp
  | e1 :: e2 :: rest, hwf, h =>
    exfalso
    simp only [WF, keys, List.map_cons, List.nodup_cons, List.mem_cons, not_or] at hwf
    have h1 := h e1.1 (by simp [keys])
    have h2 := h e2.1 (by simp [keys])
    exact hwf.1.1 (h1.trans h2.symm)

variable [DecidableEq K]

theorem get_eq_none_iff (m : GoMap K V) (k : K) : get m k = none ↔ k ∉ keys m := by
  induction m with
  | nil => simp [get, keys]
  | cons e rest ih =>
    obtain ⟨k', v⟩ := e
    by_cases h : k' = k
    · simp [get, keys, h]
    · have h' : ¬ k = k' := fun c => h c.symm
      simpa [get, keys, h, h'] using ih

theorem get_isSome_iff (m : GoMap K V) (k : K) : (get m k).isSome ↔ k ∈ keys m := by
  rw [← not_iff_not, ← get_eq_none_iff]
  cases get m k <;> simp

theorem mem_of_get (m : GoMap K V) (k : K) (v : V) (h : get m k = some v) : (k, v) ∈ m := by
  induction m with
  | nil => simp [get] at h
  | cons e rest ih =>
    obtain ⟨k', v'⟩ := e
    by_cases hk : k' = k
    · simp [get, hk] at h
      simp [hk, h]
    · simp [get, hk] at h
      exact List.mem_cons_of_mem _ (ih h)

theorem get_of_mem (m : GoMap K V) (hwf : WF m) (k : K) (v : V) (h : (k, v) ∈ m) :
    get m k = some v := by
  induction m with
  | nil => simp at h
  | cons e rest ih =>
    obtain ⟨k', v'⟩ := e
    simp only [WF, keys, List.map_cons, List.nodup_cons] at hwf
    rcases List.mem_cons.mp h with heq | hmem
    · cases heq
      simp [get]
    · have hne : k' ≠ k := by
        intro c
        apply hwf.1
        rw [c]
        exact List.mem_map_of_mem Prod.fst hmem
      simp only [get, hne, if_false]
      exact ih hwf.2 hmem

theorem get_store_eq (m : GoMap K V) (k : K) (v : V) : get (store m k v) k = some v := by
  induction m with
  | nil => simp [store, get]
  | cons e rest ih =>
    obtain ⟨k', v'⟩ := e
    by_cases h : k' = k
    · simp [store, get, h]
    · simp [store, get, h, ih]

theorem get_store_ne (m : GoMap K V) (k k' : K) (v : V) (h : k' ≠ k) :
    get (store m k v) k' = get m k' := by
  induction m with
  | nil => simp [store, get, h.symm]
  | cons e rest ih =>
    obtain ⟨k0, v0⟩ := e
    by_cases h0 : k0 = k
    · have h1 : ¬ k = k' := fun c => h c.symm
      have h2 : ¬ k0 = k' := by rw [h0]; exact h1
      simp [store, get, h0, h1]
    · by_cases h3 : k0 = k'
      · subst h3
        simp [store, get, h0]
      · simp [store, get, h0, h3, ih]

theorem keys_store_of_mem (m : GoMap K V) (k : K) (v : V) (h : k ∈ keys m) :
    keys (store m k v) = keys m := by
  induction m with
  | nil => simp [keys] at h
  | cons e rest ih =>
    obtain ⟨k0, v0⟩ := e
    by_cases h0 : k0 = k
    · simp [store, keys, h0]
    · have hr : k ∈ keys rest := by
        simp only [keys, List.map_cons, List.mem_cons] at h
        rcases h with h | h
        · exact absurd h.symm h0
        · exact h
      have := ih hr
      simp only [keys] at this
      simp [store, keys, h0, this]

theorem store_of_not_mem (m : GoMap K V) (k : K) (v : V) (h : k ∉ keys m) :
    store m k v = m ++ [(k, v)] := by
  induction m with
  | nil => simp [store]
  | cons e rest ih =>
    obtain ⟨k0, v0⟩ := e
    simp only [keys, List.map_cons, List.mem_cons, not_or] at h
    have h0 : ¬ k0 = k := fun c => h.1 c.symm
    simp [store, h0, ih h.2]

theorem WF_store (m : GoMap K V) (k : K) (v : V) (h : WF m) : WF (store m k v) := by
  by_cases hk : k ∈ keys m
  · simpa [WF, keys_store_of_mem m k v hk] using h
  · rw [store_of_not_mem m k v hk]
    simp only [WF, keys, List.map_append, List.map_cons, List.map_nil] at *
    rw [List.nodup_append]
    refine ⟨h, List.nodup_singleton k, ?_⟩
    intro a ha hb
    simp only [List.mem_singleton] at hb
    exact hk (hb ▸ ha)

theorem WF_delete (m : GoMap K V) (k : K) (h : WF m) : WF (delete m k) := by
  simp only [WF, keys, delete] at *
  exact List.Nodup.sublist (List.Sublist.map _ (List.filter_sublist _)) h

theorem delete_eq_nil_iff (m : GoMap K V) (k : K) :
    delete m k = [] ↔ ∀ k' ∈ keys m, k' = k := by
  simp [delete, keys, List.filter_eq_nil_iff]

theorem mem_iff_get (m : GoMap K V) (hwf : WF m) (k : K) (v : V) :
    (k, v) ∈ m ↔ get m k = some v :=
  ⟨get_of_mem m hwf k v, mem_of_get m k v⟩

theorem mem_store_iff (m : GoMap K V) (hwf : WF m) (k k' : K) (v v' : V) :
    (k', v') ∈ store m k v ↔ (k' = k ∧ v' = v) ∨ (k' ≠ k ∧ (k', v') ∈ m) := by
  rw [mem_iff_get _ (WF_store m k v hwf), mem_iff_get _ hwf]
  by_cases h : k' = k
  · subst h
    rw [get_store_eq]
    simp [eq_comm]
  · rw [get_store_ne _ _ _ _ h]
    simp [h]

end GoMap

/-! ## Theorems about `Device` -/

section DeviceTheorems

variable {W F V M E : Type}

theorem RemoveController_calls (r : Device W F V) (id : Nat) :
    (RemoveController r id).2 =
      if GoMap.len (RemoveController r id).1.controllers = 0
      then [WatcherCall.DeviceRemoved r.id] else [] := by
  unfold RemoveController
  simp only
  split <;> simp_all

theorem RemoveController_device (r : Device W F V) (id : Nat) :
    (RemoveController r id).1 = { r with controllers := GoMap.delete r.controllers id } := by
  unfold RemoveController
  simp only
  split <;> rfl

theorem runCtrlCalls_append (r : Device W F V) (cs ds : List (CtrlCall W)) :
    runCtrlCalls r (cs ++ ds) =
      ((runCtrlCalls (runCtrlCalls r cs).1 ds).1,
        (runCtrlCalls r cs).2 ++ (runCtrlCalls (runCtrlCalls r cs).1 ds).2) := by
  induction cs generalizing r with
  | nil => simp [runCtrlCalls]
  | cons c cs ih => simp [runCtrlCalls, ih, List.append_assoc]

/-- In a run of controller calls in which some connection is registered after every call, the
watcher is never called. -/
theorem runCtrlCalls_quiet (r : Device W F V) (cs : List (CtrlCall W))
    (h : ∀ n, 0 < n → n ≤ cs.length →
      0 < GoMap.len (runCtrlCalls r (cs.take n)).1.controllers) :
    (runCtrlCalls r cs).2 = [] := by
  induction cs generalizing r with
  | nil => simp [runCtrlCalls]
  | cons c cs ih =>
    have h1 := h 1 (by decide) (by simp)
    simp only [List.take_succ_cons, List.take_zero, runCtrlCalls, List.append_nil] at h1
    have hc : (c.run r).2 = [] := by
      cases c with
      | add id w => rfl
      | remove id =>
        simp only [CtrlCall.run] at h1 ⊢
        rw [RemoveController_calls]
        simp only [Nat.pos_iff_ne_zero] at h1
        simp [h1]
    have ht : (runCtrlCalls (c.run r).1 cs).2 = [] := by
      apply ih
      intro n hn hle
      have := h (n + 1) (by omega) (by simpa using hle)
      simpa [runCtrlCalls] using this
    simp [runCtrlCalls, hc, ht]

/-- C1 (as stated, refuted): on a device without any registered connection `RemoveController`
calls the watcher although the call does not take the number of connections from 1 to 0. -/
theorem C1_RemoveController_notifies_on_empty :
    ¬ ((RemoveController (NewDevice "sw" : Device Unit Unit Unit) 7).2 ≠ [] ↔
        (GoMap.len (NewDevice "sw" : Device Unit Unit Unit).controllers = 1 ∧
          GoMap.len (RemoveController (NewDevice "sw" : Device Unit Unit Unit) 7).1.controllers
            = 0)) := by
  decide

/-- C1 (amended): `RemoveController(id)` makes at most one watcher call, `DeviceRemoved` of this
device, and makes it if and only if no connection is registered after the call, that is, if and
only if the call takes the number of registered connections from 1 to 0 or finds the device
already without connections; and over any sequence of `AddController`/`RemoveController` calls
after each of which a connection is registered, the watcher is never called. -/
theorem C1_RemoveController_notifies_iff (r : Device W F V) (hwf : GoMap.WF r.controllers)
    (id : Nat) :
    ((RemoveController r id).2 = [WatcherCall.DeviceRemoved r.id] ∨
      (RemoveController r id).2 = []) ∧
    ((RemoveController r id).2 ≠ [] ↔ GoMap.len (RemoveController r id).1.controllers = 0) ∧
    ((RemoveController r id).2 ≠ [] ↔
      ((GoMap.len r.controllers = 1 ∧ GoMap.len (RemoveController r id).1.controllers = 0) ∨
        GoMap.len r.controllers = 0)) ∧
    (∀ cs : List (CtrlCall W),
      (∀ n, 0 < n → n ≤ cs.length → 0 < GoMap.len (runCtrlCalls r (cs.take n)).1.controllers) →
      (runCtrlCalls r cs).2 = []) := by
  have hcalls := RemoveController_calls r id
  have hdev := RemoveController_device r id
  have hiff : (RemoveController r id).2 ≠ [] ↔
      GoMap.len (RemoveController r id).1.controllers = 0 := by
    rw [hcalls]
    split <;> simp_all
  refine ⟨?_, hiff, ?_, fun cs h => runCtrlCalls_quiet r cs h⟩
  · rw [hcalls]
    split
    · exact Or.inl rfl
    · exact Or.inr rfl
  · rw [hiff, hdev]
    simp only [GoMap.len, List.length_eq_zero]
    constructor
    · intro h
      have hall := (GoMap.delete_eq_nil_iff r.controllers id).mp h
      have hle := GoMap.length_le_one_of_keys_eq r.controllers id hwf hall
      rcases Nat.lt_or_ge 0 r.controllers.length with hpos | hzero
      · exact Or.inl ⟨by omega, h⟩
      · exact Or.inr (List.length_eq_zero.mp (by omega))
    · rintro (⟨_, h⟩ | h)
      · exact h
      · rw [h]
        rfl

theorem C1_RemoveController_notifies_iff_witness :
    GoMap.WF (AddController (NewDevice "sw" : Device Unit Unit Unit) 0 ()).controllers ∧
    (((RemoveController (AddController (NewDevice "sw" : Device Unit Unit Unit) 0 ()) 0).2 =
        [WatcherCall.DeviceRemoved (AddController (NewDevice "sw" : Device Unit Unit Unit) 0 ()).id] ∨
      (RemoveController (AddController (NewDevice "sw" : Device Unit Unit Unit) 0 ()) 0).2 = []) ∧
    ((RemoveController (AddController (NewDevice "sw" : Device Unit Unit Unit) 0 ()) 0).2 ≠ [] ↔
      GoMap.len (RemoveController
        (AddController (NewDevice "sw" : Device Unit Unit Unit) 0 ()) 0).1.controllers = 0) ∧
    ((RemoveController (AddController (NewDevice "sw" : Device Unit Unit Unit) 0 ()) 0).2 ≠ [] ↔
      ((GoMap.len (AddController (NewDevice "sw" : Device Unit Unit Unit) 0 ()).controllers = 1 ∧
        GoMap.len (RemoveController
          (AddController (NewDevice "sw" : Device Unit Unit Unit) 0 ()) 0).1.controllers = 0) ∨
        GoMap.len (AddController (NewDevice "sw" : Device Unit Unit Unit) 0 ()).controllers = 0)) ∧
    (∀ cs : List (CtrlCall Unit),
      (∀ n, 0 < n → n ≤ cs.length → 0 < GoMap.len (runCtrlCalls
        (AddController (NewDevice "sw" : Device Unit Unit Unit) 0 ()) (cs.take n)).1.controllers) →
      (runCtrlCalls (AddController (NewDevice "sw" : Device Unit Unit Unit) 0 ()) cs).2 = [])) :=
  ⟨by decide,
    C1_RemoveController_notifies_iff (AddController (NewDevice "sw" : Device Unit Unit Unit) 0 ())
      (by decide) 0⟩

/-- C6: `SetFactory` is first-writer-wins. Once a call `SetFactory(f1)` has installed `f1` on a
device without a binding, `Factory()` returns `f1` after any further `SetFactory` calls; a call on
a device with a binding changes nothing at all; and a call with a factory `f` changes what
`Factory()` returns if and only if no binding is installed at the time of the call. -/
theorem C6_SetFactory_first_writer_wins (r : Device W F V) :
    (∀ (f1 : F) (fs : List (Option F)), Factory r = none →
      Factory (fs.foldl SetFactory (SetFactory r (some f1))) = some f1) ∧
    (∀ (f1 : F) (f2 : Option F), Factory r = some f1 →
      SetFactory r f2 = r ∧ Factory (SetFactory r f2) = some f1) ∧
    (∀ f : F, Factory (SetFactory r (some f)) ≠ Factory r ↔ Factory r = none) ∧
    (∀ f : F, Factory r = none → Factory (SetFactory r (some f)) = some f) := by
  have keep : ∀ (d : Device W F V) (g : F) (f2 : Option F), d.factory = some g →
      SetFactory d f2 = d := by
    intro d g f2 h
    simp [SetFactory, h]
  have keepAll : ∀ (fs : List (Option F)) (d : Device W F V) (g : F), d.factory = some g →
      fs.foldl SetFactory d = d := by
    intro fs
    induction fs with
    | nil => intro d g _; rfl
    | cons f fs ih =>
      intro d g h
      rw [List.foldl_cons, keep d g f h]
      exact ih d g h
  have inst : ∀ f : F, r.factory = none → (SetFactory r (some f)).factory = some f := by
    intro f h
    simp [SetFactory, h]
  refine ⟨?_, ?_, ?_, ?_⟩
  · intro f1 fs h
    simp only [Factory] at h ⊢
    rw [keepAll fs _ f1 (inst f1 h)]
    exact inst f1 h
  · intro f1 f2 h
    simp only [Factory] at h ⊢
    rw [keep r f1 f2 h]
    exact ⟨rfl, h⟩
  · intro f
    simp only [Factory]
    cases h : r.factory with
    | none => simp [inst f h]
    | some g => simp [keep r g (some f) h, h]
  · intro f h
    exact inst f h

/-- C7: when port number `num` is not in the port table, `UpdatePort(num, v)` gives the same
device as `AddPort(num, v)`: a Port object that did not exist before, owned by this device, with
number `num` and value `v`, is stored under `num`; the other entries of the port table, the Port
objects that existed before and all other fields are unchanged. -/
theorem C7_UpdatePort_absent_eq_AddPort (r : Device W F V) (num : Nat) (v : V)
    (h : getPort r num = none) :
    UpdatePort r num v = AddPort r num v ∧
    deref r r.portObjects.length = none ∧
    getPort (AddPort r num v) num = some r.portObjects.length ∧
    deref (AddPort r num v) r.portObjects.length =
      some { device := ID r, number := num, value := some v } ∧
    (AddPort r num v).ports = r.ports ++ [(num, r.portObjects.length)] ∧
    (∀ n, n ≠ num → getPort (AddPort r num v) n = getPort r n) ∧
    (∀ a obj, deref r a = some obj → deref (AddPort r num v) a = some obj) ∧
    (AddPort r num v).id = r.id ∧
    (AddPort r num v).controllers = r.controllers ∧
    (AddPort r num v).descriptions = r.descriptions ∧
    (AddPort r num v).features = r.features ∧
    (AddPort r num v).flowTableID = r.flowTableID ∧
    (AddPort r num v).factory = r.factory := by
  have hget : GoMap.get r.ports num = none := h
  refine ⟨?_, ?_, ?_, ?_, ?_, ?_, ?_, rfl, rfl, rfl, rfl, rfl, rfl⟩
  · simp [UpdatePort, AddPort, hget]
  · simp [deref]
  · simp [getPort, AddPort, setPort, GoMap.get_store_eq]
  · simp [deref, AddPort, setPort, NewPort, Port.SetValue, ID]
  · simp only [AddPort, setPort]
    exact GoMap.store_of_not_mem _ _ _ ((GoMap.get_eq_none_iff _ _).mp hget)
  · intro n hn
    simp [getPort, AddPort, setPort, GoMap.get_store_ne _ _ _ _ hn]
  · intro a obj ha
    simp only [deref, AddPort, setPort] at ha ⊢
    have hlt : a < r.portObjects.length := by
      by_contra hc
      rw [List.getElem?_eq_none (by omega)] at ha
      exact absurd ha (by simp)
    rw [List.getElem?_append_left hlt]
    exact ha

theorem C7_UpdatePort_absent_eq_AddPort_witness :
    getPort (NewDevice "sw" : Device Unit Unit Nat) 3 = none ∧
    UpdatePort (NewDevice "sw" : Device Unit Unit Nat) 3 11 =
      AddPort (NewDevice "sw" : Device Unit Unit Nat) 3 11 :=
  ⟨by decide, (C7_UpdatePort_absent_eq_AddPort (NewDevice "sw" : Device Unit Unit Nat) 3 11
    (by decide)).1⟩

/-- C8: when port number `num` is in the port table and refers to the Port object `obj` at
reference `a`, `UpdatePort(num, v)` leaves the port table as it is (so `Port(num)` returns the
same reference `a`), makes the object at `a` carry the value `v` (owner and number kept), and
leaves every other Port object and every other field unchanged; `AddPort(num, v)` on the same
state stores under `num` a reference that did not exist before and differs from `a`. -/
theorem C8_UpdatePort_present_keeps_identity (r : Device W F V) (num : Nat) (v : V)
    (a : Nat) (obj : Port V) (hport : getPort r num = some a) (hobj : deref r a = some obj) :
    getPort (UpdatePort r num v) num = some a ∧
    (UpdatePort r num v).ports = r.ports ∧
    Ports (UpdatePort r num v) = Ports r ∧
    deref (UpdatePort r num v) a =
      some { device := obj.device, number := obj.number, value := some v } ∧
    (∀ b, b ≠ a → deref (UpdatePort r num v) b = deref r b) ∧
    (UpdatePort r num v).id = r.id ∧
    (UpdatePort r num v).controllers = r.controllers ∧
    (UpdatePort r num v).descriptions = r.descriptions ∧
    (UpdatePort r num v).features = r.features ∧
    (UpdatePort r num v).flowTableID = r.flowTableID ∧
    (UpdatePort r num v).factory = r.factory ∧
    getPort (AddPort r num v) num = some r.portObjects.length ∧
    r.portObjects.length ≠ a ∧
    deref r r.portObjects.length = none ∧
    deref (AddPort r num v) r.portObjects.length =
      some { device := ID r, number := num, value := some v } := by
  have hget : GoMap.get r.ports num = some a := hport
  have hobj' : r.portObjects[a]? = some obj := hobj
  have hlt : a < r.portObjects.length := by
    by_contra hc
    rw [List.getElem?_eq_none (by omega)] at hobj'
    exact absurd hobj' (by simp)
  have hupd : UpdatePort r num v =
      { r with portObjects := r.portObjects.set a (obj.SetValue v) } := by
    simp [UpdatePort, hget, hobj']
  rw [hupd]
  refine ⟨hport, rfl, rfl, ?_, ?_, rfl, rfl, rfl, rfl, rfl, rfl, ?_, ?_, ?_, ?_⟩
  · simp [deref, Port.SetValue, hlt]
  · intro b hb
    simp only [deref]
    rw [List.getElem?_set_ne (Ne.symm hb)]
  · simp [getPort, AddPort, setPort, GoMap.get_store_eq]
  · omega
  · simp [deref]
  · simp [deref, AddPort, setPort, NewPort, Port.SetValue, ID]

theorem C8_UpdatePort_present_keeps_identity_witness :
    getPort (AddPort (NewDevice "sw" : Device Unit Unit Nat) 3 11) 3 = some 0 ∧
    deref (AddPort (NewDevice "sw" : Device Unit Unit Nat) 3 11) 0 = some ⟨"sw", 3, some 11⟩ ∧
    getPort (UpdatePort (AddPort (NewDevice "sw" : Device Unit Unit Nat) 3 11) 3 12) 3 = some 0 ∧
    deref (UpdatePort (AddPort (NewDevice "sw" : Device Unit Unit Nat) 3 11) 3 12) 0 =
      some ⟨"sw", 3, some 12⟩ :=
  ⟨by decide, by decide,
    (C8_UpdatePort_present_keeps_identity (AddPort (NewDevice "sw" : Device Unit Unit Nat) 3 11)
      3 12 0 ⟨"sw", 3, some 11⟩ (by decide) (by decide)).1,
    (C8_UpdatePort_present_keeps_identity (AddPort (NewDevice "sw" : Device Unit Unit Nat) 3 11)
      3 12 0 ⟨"sw", 3, some 11⟩ (by decide) (by decide)).2.2.2.1⟩

theorem latestValue_append (cs : List (PortCall V)) (c : PortCall V) (n : Nat) :
    latestValue (cs ++ [c]) n = if c.num = n then some c.val else latestValue cs n := by
  simp only [latestValue, List.reverse_append, List.reverse_cons, List.reverse_nil,
    List.nil_append, List.singleton_append, List.find?_cons]
  by_cases h : c.num = n <;> simp [h]

theorem deref_lt (r : Device W F V) (a : Nat) (obj : Port V) (h : deref r a = some obj) :
    a < r.portObjects.length := by
  by_contra hc
  simp only [deref] at h
  rw [List.getElem?_eq_none (by omega)] at h
  exact absurd h (by simp)

theorem PortsAgree_setPort (r : Device W F V) (cs : List (PortCall V)) (c : PortCall V)
    (h : PortsAgree r cs) : PortsAgree (setPort r c.num c.val) (cs ++ [c]) := by
  obtain ⟨hwf, hent, hkeys⟩ := h
  have hwf' : GoMap.WF (GoMap.store r.ports c.num r.portObjects.length) :=
    GoMap.WF_store _ _ _ hwf
  refine ⟨hwf', ?_, ?_⟩
  · intro n a hmem
    have hg := GoMap.get_of_mem _ hwf' n a hmem
    rw [latestValue_append]
    by_cases hn : n = c.num
    · subst hn
      rw [GoMap.get_store_eq] at hg
      cases hg
      simp [deref, setPort, NewPort, Port.SetValue]
    · rw [GoMap.get_store_ne _ _ _ _ hn] at hg
      have hold := hent n a (GoMap.mem_of_get _ _ _ hg)
      have hlt := deref_lt r a _ hold
      have hn' : ¬ c.num = n := fun e => hn e.symm
      simp only [deref, setPort, hn', if_false] at hold ⊢
      rw [List.getElem?_append_left hlt]
      exact hold
  · intro n
    simp only [setPort]
    rw [← GoMap.get_isSome_iff]
    by_cases hn : n = c.num
    · subst hn
      simp only [GoMap.get_store_eq, Option.isSome_some, true_iff]
      exact ⟨c, by simp, rfl⟩
    · rw [GoMap.get_store_ne _ _ _ _ hn, GoMap.get_isSome_iff, hkeys n]
      constructor
      · rintro ⟨c', hc', hc'n⟩
        exact ⟨c', by simp [hc'], hc'n⟩
      · rintro ⟨c', hc', hc'n⟩
        rcases List.mem_append.mp hc' with h1 | h1
        · exact ⟨c', h1, hc'n⟩
        · simp only [List.mem_singleton] at h1
          subst h1
          exact absurd hc'n.symm hn

theorem PortsAgree_update (r : Device W F V) (cs : List (PortCall V)) (c : PortCall V)
    (h : PortsAgree r cs) : PortsAgree (UpdatePort r c.num c.val) (cs ++ [c]) := by
  cases hget : GoMap.get r.ports c.num with
  | none =>
    have : UpdatePort r c.num c.val = setPort r c.num c.val := by simp [UpdatePort, hget]
    rw [this]
    exact PortsAgree_setPort r cs c h
  | some a =>
    obtain ⟨hwf, hent, hkeys⟩ := h
    have hobj := hent c.num a (GoMap.mem_of_get _ _ _ hget)
    have hlt := deref_lt r a _ hobj
    have hupd : UpdatePort r c.num c.val =
        { r with portObjects := r.portObjects.set a ⟨r.id, c.num, some c.val⟩ } := by
      simp only [deref] at hobj
      simp [UpdatePort, hget, hobj, Port.SetValue]
    rw [hupd]
    refine ⟨hwf, ?_, ?_⟩
    · intro n b hmem
      have hold := hent n b hmem
      rw [latestValue_append]
      by_cases hb : b = a
      · subst hb
        rw [hobj] at hold
        have hn : c.num = n := by
          have := congrArg Port.number (Option.some.inj hold)
          exact this
        subst hn
        simp [deref, Port.SetValue, hlt]
      · have hn : ¬ c.num = n := by
          intro e
          subst e
          have hg := GoMap.get_of_mem _ hwf _ _ hmem
          rw [hget] at hg
          exact hb (Option.some.inj hg).symm
        simp only [deref, hn, if_false] at hold ⊢
        rw [List.getElem?_set_ne (Ne.symm hb)]
        exact hold
    · intro n
      show n ∈ GoMap.keys r.ports ↔ _
      rw [hkeys n]
      constructor
      · rintro ⟨c', hc', hn⟩
        exact ⟨c', by simp [hc'], hn⟩
      · rintro ⟨c', hc', hn⟩
        rcases List.mem_append.mp hc' with h1 | h1
        · exact ⟨c', h1, hn⟩
        · simp only [List.mem_singleton] at h1
          subst h1
          rw [← hkeys n, ← hn, ← GoMap.get_isSome_iff, hget]
          rfl

theorem PortsAgree_run (r : Device W F V) (cs : List (PortCall V)) (c : PortCall V)
    (h : PortsAgree r cs) : PortsAgree (c.run r) (cs ++ [c]) := by
  cases c with
  | add n p => exact PortsAgree_setPort r cs (PortCall.add n p) h
  | update n p => exact PortsAgree_update r cs (PortCall.update n p) h

theorem runPortCalls_id (r : Device W F V) (cs : List (PortCall V)) :
    (runPortCalls r cs).id = r.id := by
  induction cs generalizing r with
  | nil => rfl
  | cons c cs ih =>
    simp only [runPortCalls, List.foldl_cons] at ih ⊢
    rw [ih]
    cases c with
    | add n p => rfl
    | update n p =>
      simp only [PortCall.run, UpdatePort]
      split
      · rfl
      · split <;> rfl

theorem PortsAgree_runPortCalls (id : String) (cs : List (PortCall V)) :
    PortsAgree (runPortCalls (NewDevice id : Device W F V) cs) cs := by
  induction cs using List.reverseRecOn with
  | nil =>
    refine ⟨?_, ?_, ?_⟩
    · simp [runPortCalls, NewDevice, GoMap.WF, GoMap.keys]
    · intro n a h
      simp [runPortCalls, NewDevice] at h
    · intro n
      simp [runPortCalls, NewDevice, GoMap.keys]
  | append_singleton cs c ih =>
    have : runPortCalls (NewDevice id : Device W F V) (cs ++ [c]) =
        c.run (runPortCalls (NewDevice id) cs) := by
      simp [runPortCalls, List.foldl_append]
    rw [this]
    exact PortsAgree_run _ cs c ih

theorem latestValue_ne_none (cs : List (PortCall V)) (n : Nat) (h : ∃ c ∈ cs, c.num = n) :
    latestValue cs n ≠ none := by
  obtain ⟨c, hc, hn⟩ := h
  simp only [latestValue, ne_eq, Option.map_eq_none', List.find?_eq_none, List.mem_reverse,
    decide_eq_true_eq, not_forall]
  exact ⟨c, hc, by simp [hn]⟩

/-- C9: on a freshly constructed device, after `AddPort(3, s1)` the sequence returned by `Ports()`
has one element, a Port with number 3 and value `s1`; after a following `UpdatePort(3, s2)` it
still has one element, the same Port, now with value `s2`. In general, after any sequence `cs`
of `AddPort`/`UpdatePort` calls on a fresh device, `Ports()` returns distinct Ports, one for each
port number used in `cs` and no other, each owned by the device and carrying the value of the
latest call for its number. -/
theorem C9_Ports_after_port_calls (id : String) (s1 s2 : V) (cs : List (PortCall V)) :
    PortsObjects (AddPort (NewDevice id : Device W F V) 3 s1) = [some ⟨id, 3, some s1⟩] ∧
    PortsObjects (UpdatePort (AddPort (NewDevice id : Device W F V) 3 s1) 3 s2) =
      [some ⟨id, 3, some s2⟩] ∧
    Ports (UpdatePort (AddPort (NewDevice id : Device W F V) 3 s1) 3 s2) =
      Ports (AddPort (NewDevice id : Device W F V) 3 s1) ∧
    ∃ objs : List (Port V),
      PortsObjects (runPortCalls (NewDevice id : Device W F V) cs) = objs.map some ∧
      (Ports (runPortCalls (NewDevice id : Device W F V) cs)).Nodup ∧
      (objs.map Port.number).Nodup ∧
      (∀ n, n ∈ objs.map Port.number ↔ ∃ c ∈ cs, c.num = n) ∧
      (∀ o ∈ objs, o.device = id ∧ o.value = latestValue cs o.number ∧ o.value ≠ none) := by
  refine ⟨?_, ?_, ?_, ?_⟩
  · simp [PortsObjects, Ports, AddPort, setPort, NewDevice, GoMap.store, GoMap.values, deref,
      NewPort, Port.SetValue]
  · simp [PortsObjects, Ports, AddPort, UpdatePort, setPort, NewDevice, GoMap.store, GoMap.get,
      GoMap.values, deref, NewPort, Port.SetValue]
  · simp [Ports, AddPort, UpdatePort, setPort, NewDevice, GoMap.store, GoMap.get,
      GoMap.values, NewPort, Port.SetValue]
  · obtain ⟨hwf, hent, hkeys⟩ := PortsAgree_runPortCalls (W := W) (F := F) id cs
    have hid : (runPortCalls (NewDevice id : Device W F V) cs).id = id :=
      runPortCalls_id _ cs
    generalize runPortCalls (NewDevice id : Device W F V) cs = d at hwf hent hkeys hid
    have hobjs : PortsObjects d =
        (d.ports.map (fun e => (⟨d.id, e.1, latestValue cs e.1⟩ : Port V))).map some := by
      simp only [PortsObjects, Ports, GoMap.values, List.map_map]
      apply List.map_congr_left
      intro e he
      exact hent e.1 e.2 he
    have hnum : (d.ports.map (fun e => (⟨d.id, e.1, latestValue cs e.1⟩ : Port V))).map
        Port.number = GoMap.keys d.ports := by
      simp [GoMap.keys, List.map_map, Function.comp_def]
    have hnd : (d.ports.map (fun e => (⟨d.id, e.1, latestValue cs e.1⟩ : Port V))).Nodup := by
      apply List.Nodup.of_map Port.number
      rw [hnum]
      exact hwf
    refine ⟨_, hobjs, ?_, ?_, ?_, ?_⟩
    · have h2 : ((Ports d).map (deref d)).Nodup := by
        have := hobjs
        simp only [PortsObjects] at this
        rw [this]
        exact hnd.map (Option.some_injective _)
      exact List.Nodup.of_map _ h2
    · rw [hnum]
      exact hwf
    · intro n
      rw [hnum]
      exact hkeys n
    · intro o ho
      obtain ⟨e, he, rfl⟩ := List.mem_map.mp ho
      refine ⟨hid, rfl, ?_⟩
      apply latestValue_ne_none
      apply (hkeys e.1).mp
      exact List.mem_map_of_mem Prod.fst he

/-- C10: `SendMessage` returns its own "no main connection" error if and only if no sink is
registered under connection id 0, whatever is registered under other ids, and then makes no
`Write`; when a sink `c` is registered under id 0 it makes exactly one `Write`, of the payload on
`c`, and returns the result of that call; in both cases the device is unchanged. -/
theorem C10_SendMessage (Write : W → M → Option E) (r : Device W F V) (msg : M) :
    ((SendMessage Write r msg).err = some SendError.notFoundMain ↔
      GoMap.get r.controllers 0 = none) ∧
    (GoMap.get r.controllers 0 = none → (SendMessage Write r msg).writes = []) ∧
    (∀ c, GoMap.get r.controllers 0 = some c →
      (SendMessage Write r msg).writes = [(0, c, msg)] ∧
      (SendMessage Write r msg).err = (Write c msg).map SendError.fromWrite ∧
      ((SendMessage Write r msg).err = none ↔ Write c msg = none) ∧
      (∀ e, (SendMessage Write r msg).err = some (SendError.fromWrite e) ↔
        Write c msg = some e)) ∧
    (SendMessage Write r msg).device = r := by
  cases h : GoMap.get r.controllers 0 with
  | none => simp [SendMessage, h]
  | some c =>
    have hs : SendMessage Write r msg =
        { device := r, err := (Write c msg).map SendError.fromWrite,
          writes := [(0, c, msg)] } := by
      simp [SendMessage, h]
    rw [hs]
    refine ⟨?_, ?_, ?_, rfl⟩
    · cases Write c msg <;> simp
    · simp
    · intro c' hc
      cases hc
      cases Write c msg <;> simp

end DeviceTheorems

end Cherry

/-! ## Theorems about `Manager` -/

namespace Cherry

section ManagerTheorems

variable (ToUpper : String → String)

theorem checkDependencies_congr (r r' : Manager) (h : r.apps = r'.apps) (ds : List String) :
    checkDependencies ToUpper r ds = checkDependencies ToUpper r' ds := by
  induction ds with
  | nil => rfl
  | cons d ds ih => simp only [checkDependencies, h, ih]

theorem checkDependencies_eq_none_iff (r : Manager) (ds : List String) :
    checkDependencies ToUpper r ds = none ↔ ∀ d ∈ ds, ¬ unmet ToUpper r d := by
  induction ds with
  | nil => simp [checkDependencies]
  | cons d ds ih =>
    simp only [checkDependencies, List.mem_cons, forall_eq_or_imp, unmet]
    cases hg : GoMap.get r.apps (ToUpper d) with
    | none => simp
    | some w =>
      cases hw : w.enabled with
      | false => simp [hw]
      | true => simpa [hw, unmet] using ih

theorem checkDependencies_some (r : Manager) (ds : List String) (name : String)
    (h : checkDependencies ToUpper r ds = some name) : name ∈ ds ∧ unmet ToUpper r name := by
  induction ds with
  | nil => simp [checkDependencies] at h
  | cons d ds ih =>
    simp only [checkDependencies] at h
    cases hg : GoMap.get r.apps (ToUpper d) with
    | none =>
      simp only [hg, Option.some.injEq] at h
      subst h
      exact ⟨by simp, Or.inl hg⟩
    | some w =>
      cases hw : w.enabled with
      | false =>
        simp [hg, hw] at h
        subst h
        exact ⟨by simp, Or.inr ⟨w, hg, hw⟩⟩
      | true =>
        simp only [hg, hw, if_true] at h
        exact ⟨List.mem_cons_of_mem _ (ih h).1, (ih h).2⟩

theorem nextOf_set_eq (objects : List Processor) (a : Nat) (p q : Processor)
    (hp : objects[a]? = some p) (hq : q.next = p.next) (b : Nat) :
    nextOf (objects.set a q) b = nextOf objects b := by
  simp only [nextOf]
  by_cases hb : a = b
  · subst hb
    have hlt : a < objects.length := by
      by_contra hc
      rw [List.getElem?_eq_none (by omega)] at hp
      exact absurd hp (by simp)
    simp [hp, hq, hlt]
  · rw [List.getElem?_set_ne hb]

theorem walk_congr (objects objects' : List Processor)
    (h : ∀ a, nextOf objects' a = nextOf objects a) (fuel : Nat) (start : Option Nat) :
    walk objects' fuel start = walk objects fuel start := by
  induction fuel generalizing start with
  | zero => cases start <;> rfl
  | succ fuel ih =>
    cases start with
    | none => rfl
    | some a =>
      have ha := h a
      simp only [nextOf] at ha
      simp only [walk]
      cases h1 : objects[a]? with
      | none =>
        rw [h1] at ha
        cases h2 : objects'[a]? with
        | none => rfl
        | some q => simp [h2] at ha
      | some p =>
        rw [h1] at ha
        cases h2 : objects'[a]? with
        | none => simp [h2] at ha
        | some q =>
          simp only [h2, Option.map_some', Option.some.injEq] at ha
          simp only [Processor.Next, ha, ih]

theorem nextOf_lt (objects : List Processor) (a : Nat) (x : Option Nat)
    (h : nextOf objects a = some x) : a < objects.length := by
  by_contra hc
  simp only [nextOf] at h
  rw [List.getElem?_eq_none (by omega)] at h
  exact absurd h (by simp)

theorem Linked_valid (objects : List Processor) (l : List Nat) (h : Linked objects l) :
    ∀ a ∈ l, a < objects.length := by
  induction l with
  | nil => simp
  | cons a rest ih =>
    cases rest with
    | nil =>
      intro x hx
      simp only [List.mem_singleton] at hx
      subst hx
      exact nextOf_lt _ _ _ h
    | cons b rest =>
      intro x hx
      rcases List.mem_cons.mp hx with hx | hx
      · subst hx
        exact nextOf_lt _ _ _ h.1
      · exact ih h.2 x hx

theorem Linked_congr (objects objects' : List Processor) (l : List Nat)
    (h : ∀ a ∈ l, nextOf objects' a = nextOf objects a) (hl : Linked objects l) :
    Linked objects' l := by
  induction l with
  | nil => trivial
  | cons a rest ih =>
    cases rest with
    | nil =>
      simp only [Linked] at hl ⊢
      rw [h a (by simp)]
      exact hl
    | cons b rest =>
      simp only [Linked] at hl ⊢
      refine ⟨?_, ih (fun x hx => h x (List.mem_cons_of_mem _ hx)) hl.2⟩
      rw [h a (by simp)]
      exact hl.1

theorem Linked_append (objects objects' : List Processor) (l : List Nat) (t x : Nat)
    (hl : Linked objects l) (hlast : l.getLast? = some t) (hnd : l.Nodup)
    (ht : nextOf objects' t = some (some x)) (hx : nextOf objects' x = some none)
    (hother : ∀ a, a ≠ t → nextOf objects' a = nextOf objects a) :
    Linked objects' (l ++ [x]) := by
  induction l with
  | nil => simp at hlast
  | cons a rest ih =>
    cases rest with
    | nil =>
      simp only [List.getLast?_singleton, Option.some.injEq] at hlast
      subst hlast
      exact ⟨ht, hx⟩
    | cons b rest =>
      have hlast' : (b :: rest).getLast? = some t := by
        rw [List.getLast?_cons_cons] at hlast
        exact hlast
      have hnd' := List.nodup_cons.mp hnd
      have hat : a ≠ t := by
        intro e
        subst e
        exact hnd'.1 (List.mem_of_getLast?_eq_some hlast')
      refine ⟨?_, ih hl.2 hlast' hnd'.2⟩
      rw [hother a hat]
      exact hl.1

theorem walk_of_Linked (objects : List Processor) (l : List Nat) (hl : Linked objects l)
    (fuel : Nat) (hfuel : l.length ≤ fuel) : walk objects fuel l.head? = some l := by
  induction l generalizing fuel with
  | nil => cases fuel <;> rfl
  | cons a rest ih =>
    cases fuel with
    | zero => simp at hfuel
    | succ fuel =>
      have hfuel' : rest.length ≤ fuel := by simpa using hfuel
      cases rest with
      | nil =>
        simp only [Linked, nextOf] at hl
        cases ha : objects[a]? with
        | none => simp [ha] at hl
        | some p =>
          simp only [ha, Option.map_some', Option.some.injEq] at hl
          simp [walk, ha, Processor.Next, hl]
      | cons b rest =>
        have hl1 := hl.1
        simp only [nextOf] at hl1
        cases ha : objects[a]? with
        | none => simp [ha] at hl1
        | some p =>
          simp only [ha, Option.map_some', Option.some.injEq] at hl1
          have := ih hl.2 fuel hfuel'
          simp only [List.head?_cons] at this
          simp [walk, ha, Processor.Next, hl1, this]

theorem length_le_of_nodup_lt (l : List Nat) (n : Nat) (hnd : l.Nodup)
    (h : ∀ a ∈ l, a < n) : l.length ≤ n := by
  have hsub : l ⊆ List.range n := fun a ha => List.mem_range.mpr (h a ha)
  have := (List.subperm_of_subset hnd hsub).length_le
  simpa using this

theorem firstOccurrences_append (l : List Nat) (a : Nat) :
    firstOccurrences (l ++ [a]) =
      if a ∈ firstOccurrences l then firstOccurrences l else firstOccurrences l ++ [a] := by
  simp [firstOccurrences, List.foldl_append]

theorem chain_of_HoldsChain (r : Manager) (l : List Nat) (h : HoldsChain r l) :
    chain r = some l := by
  obtain ⟨hhead, _, hnd, hlink, _, _, _⟩ := h
  simp only [chain, hhead]
  exact walk_of_Linked r.objects l hlink _
    (length_le_of_nodup_lt l _ hnd (Linked_valid r.objects l hlink))

/-- What `Enable` does on a registered, disabled application whose `Init` succeeds and one of
whose dependencies fails the check. -/
theorem Enable_dependency_error (r : Manager) (appName : String) (v : application)
    (app : Processor) (name : String)
    (hreg : GoMap.get r.apps (ToUpper appName) = some v) (hdis : v.enabled = false)
    (hobj : r.objects[v.inst]? = some app) (hinit : app.initResult app.initCalls = true)
    (hdep : checkDependencies ToUpper r app.dependencies = some name) :
    Enable ToUpper r appName =
      some ({ r with objects := r.objects.set v.inst app.Init.1 },
        some (EnableError.checkingDependencies name)) := by
  have hdep'' : checkDependencies ToUpper
      { r with objects := r.objects.set v.inst app.Init.1 } app.dependencies = some name :=
    (checkDependencies_congr ToUpper
      { r with objects := r.objects.set v.inst app.Init.1 } r rfl app.dependencies).trans hdep
  simp only [Enable, hreg, hdis, hobj, Processor.Init, hinit]
  simp only [Processor.Init] at hdep''
  simp [hdep'']

/-- What `Enable` does on a registered, disabled application whose `Init` succeeds and whose
dependencies pass the check. -/
theorem Enable_success (r : Manager) (appName : String) (v : application)
    (app : Processor)
    (hreg : GoMap.get r.apps (ToUpper appName) = some v) (hdis : v.enabled = false)
    (hobj : r.objects[v.inst]? = some app) (hinit : app.initResult app.initCalls = true)
    (hdep : checkDependencies ToUpper r app.dependencies = none) :
    Enable ToUpper r appName =
      match r.head with
      | none =>
        some ({ apps := GoMap.store r.apps (ToUpper appName) { v with enabled := true }
                head := some v.inst
                tail := some v.inst
                objects := r.objects.set v.inst app.Init.1 }, none)
      | some _ =>
        match r.tail with
        | none => none
        | some t =>
          match (r.objects.set v.inst app.Init.1)[t]? with
          | none => none
          | some tp =>
            some ({ apps := GoMap.store r.apps (ToUpper appName) { v with enabled := true }
                    head := r.head
                    tail := some v.inst
                    objects := (r.objects.set v.inst app.Init.1).set t (tp.SetNext v.inst) },
                  none) := by
  have hdep'' : checkDependencies ToUpper
      { r with objects := r.objects.set v.inst app.Init.1 } app.dependencies = none :=
    (checkDependencies_congr ToUpper
      { r with objects := r.objects.set v.inst app.Init.1 } r rfl app.dependencies).trans hdep
  simp only [Enable, hreg, hdis, hobj, Processor.Init, hinit]
  simp only [Processor.Init] at hdep''
  simp only [hdep'']
  cases hh : r.head with
  | none => simp
  | some h0 =>
    cases ht : r.tail with
    | none => simp
    | some t => simp

/-- C2: with applications A (no dependencies) and B (dependencies: the name of A) registered,
both with an `Init` that always succeeds and none enabled, `Enable` of B returns the dependency
error naming A and leaves the chain empty; then `Enable` of A and `Enable` of B both return
`nil`, and the chain walked from the head is A, B. -/
theorem C2_enable_scenario (a b : String) (hab : ToUpper a ≠ ToUpper b) :
    ∃ m1 m2 m3 : Manager,
      Enable ToUpper
          (NewManager ToUpper [⟨a, [], fun _ => true⟩, ⟨b, [a], fun _ => true⟩]) b =
        some (m1, some (EnableError.checkingDependencies a)) ∧
      chain m1 = some [] ∧
      Enable ToUpper m1 a = some (m2, none) ∧
      Enable ToUpper m2 b = some (m3, none) ∧
      chain m3 = some [0, 1] ∧
      m3.head = some 0 ∧ m3.tail = some 1 ∧
      m3.objects.map Processor.name = [a, b] := by
  have hba : ¬ ToUpper b = ToUpper a := fun e => hab e.symm
  have h0 : NewManager ToUpper [⟨a, [], fun _ => true⟩, ⟨b, [a], fun _ => true⟩] =
      { apps := [(ToUpper a, ⟨0, false⟩), (ToUpper b, ⟨1, false⟩)]
        head := none
        tail := none
        objects := [⟨a, [], fun _ => true, 0, none⟩, ⟨b, [a], fun _ => true, 0, none⟩] } := by
    simp [NewManager, register, GoMap.store, List.range_succ, AppSpec.New, hab]
  rw [h0]
  refine ⟨{ apps := [(ToUpper a, ⟨0, false⟩), (ToUpper b, ⟨1, false⟩)]
            head := none
            tail := none
            objects := [⟨a, [], fun _ => true, 0, none⟩, ⟨b, [a], fun _ => true, 1, none⟩] },
          { apps := [(ToUpper a, ⟨0, true⟩), (ToUpper b, ⟨1, false⟩)]
            head := some 0
            tail := some 0
            objects := [⟨a, [], fun _ => true, 1, none⟩, ⟨b, [a], fun _ => true, 1, none⟩] },
          { apps := [(ToUpper a, ⟨0, true⟩), (ToUpper b, ⟨1, true⟩)]
            head := some 0
            tail := some 1
            objects := [⟨a, [], fun _ => true, 1, some 1⟩, ⟨b, [a], fun _ => true, 2, none⟩] },
          ?_, ?_, ?_, ?_, ?_, rfl, rfl, rfl⟩
  · simp [Enable, GoMap.get, hab, hba, checkDependencies, Processor.Init]
  · simp [chain, walk]
  · simp [Enable, GoMap.get, GoMap.store, hab, hba, checkDependencies, Processor.Init]
  · simp [Enable, GoMap.get, GoMap.store, hab, hba, checkDependencies, Processor.Init,
      Processor.SetNext]
  · simp [chain, walk, Processor.Next]

theorem C2_enable_scenario_witness :
    asciiUpper "a" ≠ asciiUpper "b" ∧
    ∃ m1 m2 m3 : Manager,
      Enable asciiUpper
          (NewManager asciiUpper [⟨"a", [], fun _ => true⟩, ⟨"b", ["a"], fun _ => true⟩]) "b" =
        some (m1, some (EnableError.checkingDependencies "a")) ∧
      chain m1 = some [] ∧
      Enable asciiUpper m1 "a" = some (m2, none) ∧
      Enable asciiUpper m2 "b" = some (m3, none) ∧
      chain m3 = some [0, 1] ∧
      m3.head = some 0 ∧ m3.tail = some 1 ∧
      m3.objects.map Processor.name = ["a", "b"] :=
  ⟨by decide, C2_enable_scenario asciiUpper "a" "b" (by decide)⟩

/-- C3: for every manager and every registered application that is not enabled and whose
`Init` succeeds: `Enable` returns an error if and only if some name in the dependency list of the
application is, after upper-casing, not registered or registered but not enabled; when it returns
an error, the error is the dependency error for such a name, and head, tail, the registrations
with their enabled flags, every `next` link and the chain walked from the head are as before the
call; and when no dependency is unmet, in a manager whose tail exists whenever it has a head,
`Enable` returns `nil`. -/
theorem C3_Enable_dependency_error_iff (r : Manager) (appName : String) (v : application)
    (app : Processor)
    (hreg : GoMap.get r.apps (ToUpper appName) = some v) (hdis : v.enabled = false)
    (hobj : r.objects[v.inst]? = some app) (hinit : app.initResult app.initCalls = true) :
    ((∃ r' e, Enable ToUpper r appName = some (r', some e)) ↔
      ∃ d ∈ app.dependencies, unmet ToUpper r d) ∧
    (∀ r' e, Enable ToUpper r appName = some (r', some e) →
      (∃ d ∈ app.dependencies, e = EnableError.checkingDependencies d ∧ unmet ToUpper r d) ∧
      r'.head = r.head ∧ r'.tail = r.tail ∧ r'.apps = r.apps ∧
      (∀ a, nextOf r'.objects a = nextOf r.objects a) ∧
      chain r' = chain r) ∧
    ((r.head ≠ none → ∃ t tp, r.tail = some t ∧ r.objects[t]? = some tp) →
      (¬ ∃ d ∈ app.dependencies, unmet ToUpper r d) →
      ∃ r', Enable ToUpper r appName = some (r', none)) := by
  cases hdep : checkDependencies ToUpper r app.dependencies with
  | some name =>
    have hE := Enable_dependency_error ToUpper r appName v app name hreg hdis hobj hinit hdep
    have hun := checkDependencies_some ToUpper r _ name hdep
    have hnext : ∀ a, nextOf (r.objects.set v.inst app.Init.1) a = nextOf r.objects a :=
      fun a => nextOf_set_eq r.objects v.inst app app.Init.1 hobj rfl a
    rw [hE]
    refine ⟨⟨fun _ => ⟨name, hun.1, hun.2⟩, fun _ => ⟨_, _, rfl⟩⟩, ?_, ?_⟩
    · intro r' e he
      simp only [Option.some.injEq, Prod.mk.injEq] at he
      obtain ⟨hr, he⟩ := he
      subst hr
      subst he
      refine ⟨⟨name, hun.1, rfl, hun.2⟩, rfl, rfl, rfl, hnext, ?_⟩
      simp only [chain, List.length_set]
      exact walk_congr _ _ hnext _ _
    · intro _ hno
      exact absurd ⟨name, hun.1, hun.2⟩ hno
  | none =>
    have hE := Enable_success ToUpper r appName v app hreg hdis hobj hinit hdep
    have hmet := (checkDependencies_eq_none_iff ToUpper r _).mp hdep
    have hnoerr : ∀ r' e, Enable ToUpper r appName = some (r', some e) → False := by
      intro r' e he
      rw [hE] at he
      cases hh : r.head with
      | none => simp [hh] at he
      | some h0 =>
        cases ht : r.tail with
        | none => simp [hh, ht] at he
        | some t =>
          cases htp : (r.objects.set v.inst app.Init.1)[t]? with
          | none => simp [hh, ht, htp] at he
          | some tp => simp [hh, ht, htp] at he
    refine ⟨⟨?_, ?_⟩, ?_, ?_⟩
    · rintro ⟨r', e, he⟩
      exact (hnoerr r' e he).elim
    · rintro ⟨d, hd, hu⟩
      exact absurd hu (hmet d hd)
    · intro r' e he
      exact (hnoerr r' e he).elim
    · intro htail _
      rw [hE]
      cases hh : r.head with
      | none => exact ⟨_, rfl⟩
      | some h0 =>
        obtain ⟨t, tp, ht, htp⟩ := htail (by simp [hh])
        have hlt : t < r.objects.length := by
          by_contra hc
          rw [List.getElem?_eq_none (by omega)] at htp
          exact absurd htp (by simp)
        have hlt' : t < (r.objects.set v.inst app.Init.1).length := by simpa using hlt
        simp only [ht, List.getElem?_eq_getElem hlt']
        exact ⟨_, rfl⟩

theorem Enable_unknown (r : Manager) (appName : String)
    (hreg : GoMap.get r.apps (ToUpper appName) = none) :
    Enable ToUpper r appName = some (r, some (EnableError.unknownApplication appName)) := by
  simp [Enable, hreg]

theorem Enable_enabled (r : Manager) (appName : String) (v : application)
    (hreg : GoMap.get r.apps (ToUpper appName) = some v) (hen : v.enabled = true) :
    Enable ToUpper r appName = some (r, none) := by
  simp [Enable, hreg, hen]

theorem Enable_init_error (r : Manager) (appName : String) (v : application)
    (app : Processor)
    (hreg : GoMap.get r.apps (ToUpper appName) = some v) (hdis : v.enabled = false)
    (hobj : r.objects[v.inst]? = some app) (hinit : app.initResult app.initCalls = false) :
    Enable ToUpper r appName =
      some ({ r with objects := r.objects.set v.inst app.Init.1 },
        some EnableError.initializing) := by
  simp [Enable, hreg, hdis, hobj, Processor.Init, hinit]

theorem getElem?_lt (objects : List Processor) (a : Nat) (p : Processor)
    (h : objects[a]? = some p) : a < objects.length := by
  by_contra hc
  rw [List.getElem?_eq_none (by omega)] at h
  exact absurd h (by simp)

theorem name_set (objects : List Processor) (i0 : Nat) (p0 q : Processor)
    (h0 : objects[i0]? = some p0) (hq : q.name = p0.name) (i : Nat) (p : Processor)
    (h : objects[i]? = some p) :
    ∃ p', (objects.set i0 q)[i]? = some p' ∧ p'.name = p.name := by
  by_cases hi : i0 = i
  · subst hi
    have hlt := getElem?_lt objects i0 p0 h0
    rw [h0] at h
    cases h
    exact ⟨q, by simp [hlt], hq⟩
  · exact ⟨p, by rw [List.getElem?_set_ne hi]; exact h, rfl⟩

theorem RegistryOK_update (r : Manager) (h : RegistryOK ToUpper r)
    (apps' : GoMap String application) (hd tl : Option Nat) (objs' : List Processor)
    (hwf : GoMap.WF apps')
    (happs : ∀ k v', (k, v') ∈ apps' → ∃ v, (k, v) ∈ r.apps ∧ v.inst = v'.inst)
    (hobjs : ∀ (i : Nat) (p : Processor), r.objects[i]? = some p →
      ∃ p' : Processor, objs'[i]? = some p' ∧ p'.name = p.name) :
    RegistryOK ToUpper { apps := apps', head := hd, tail := tl, objects := objs' } := by
  refine ⟨hwf, ?_⟩
  intro k v' hmem
  obtain ⟨v, hv, hinst⟩ := happs k v' hmem
  obtain ⟨p, hp, hk⟩ := h.2 k v hv
  obtain ⟨p', hp', hname⟩ := hobjs v.inst p hp
  refine ⟨p', ?_, ?_⟩
  · show objs'[v'.inst]? = some p'
    rw [← hinst]
    exact hp'
  · rw [hname]
    exact hk

/-- A call of `Init` on a stored instance keeps the registry in order and the chain as it is. -/
theorem invariants_Init (r : Manager) (l : List Nat) (x : Nat) (app : Processor)
    (hreg : RegistryOK ToUpper r) (hch : HoldsChain r l) (hobj : r.objects[x]? = some app) :
    RegistryOK ToUpper { r with objects := r.objects.set x app.Init.1 } ∧
    HoldsChain { r with objects := r.objects.set x app.Init.1 } l := by
  have hnext : ∀ a, nextOf (r.objects.set x app.Init.1) a = nextOf r.objects a :=
    fun a => nextOf_set_eq r.objects x app app.Init.1 hobj rfl a
  constructor
  · exact RegistryOK_update ToUpper r hreg _ _ _ _ hreg.1 (fun k v hv => ⟨v, hv, rfl⟩)
      (fun i p hp => name_set r.objects x app app.Init.1 hobj rfl i p hp)
  · obtain ⟨h1, h2, h3, h4, h5, h6, h7⟩ := hch
    refine ⟨h1, h2, h3, Linked_congr _ _ l (fun a _ => hnext a) h4, h5, h6, ?_⟩
    intro a ha hlt
    rw [hnext a]
    exact h7 a ha (by simpa using hlt)

/-- A successful `Enable` of a disabled application keeps the registry in order and appends the
instance of the application to the chain. -/
theorem invariants_success (r : Manager) (l : List Nat) (appName : String) (v : application)
    (app : Processor) (hreg : RegistryOK ToUpper r) (hch : HoldsChain r l)
    (hget : GoMap.get r.apps (ToUpper appName) = some v) (hdis : v.enabled = false)
    (hobj : r.objects[v.inst]? = some app) (hinit : app.initResult app.initCalls = true)
    (hdep : checkDependencies ToUpper r app.dependencies = none) :
    ∃ r', Enable ToUpper r appName = some (r', none) ∧ RegistryOK ToUpper r' ∧
      HoldsChain r' (l ++ [v.inst]) := by
  have hmem : (ToUpper appName, v) ∈ r.apps := GoMap.mem_of_get _ _ _ hget
  obtain ⟨h1, h2, h3, h4, h5, h6, h7⟩ := hch
  have hx : v.inst ∉ l := by
    intro hin
    have := (h5 _ _ hmem).mpr hin
    rw [hdis] at this
    cases this
  have hxlt := getElem?_lt _ _ _ hobj
  have hnext1 : ∀ a, nextOf (r.objects.set v.inst app.Init.1) a = nextOf r.objects a :=
    fun a => nextOf_set_eq r.objects v.inst app app.Init.1 hobj rfl a
  have hwf' : GoMap.WF (GoMap.store r.apps (ToUpper appName) { v with enabled := true }) :=
    GoMap.WF_store _ _ _ hreg.1
  have hmemst := fun k v' =>
    GoMap.mem_store_iff r.apps hreg.1 (ToUpper appName) k { v with enabled := true } v'
  have happs' : ∀ k v', (k, v') ∈ GoMap.store r.apps (ToUpper appName)
      { v with enabled := true } → ∃ v0, (k, v0) ∈ r.apps ∧ v0.inst = v'.inst := by
    intro k v' hm
    rcases (hmemst k v').mp hm with ⟨hk, hv⟩ | ⟨_, hm'⟩
    · subst hk
      subst hv
      exact ⟨v, hmem, rfl⟩
    · exact ⟨v', hm', rfl⟩
  have hinj : ∀ k v', (k, v') ∈ r.apps → v'.inst = v.inst → k = ToUpper appName := by
    intro k v' hm hi
    obtain ⟨p, hp, hk⟩ := hreg.2 k v' hm
    obtain ⟨q, hq, hk'⟩ := hreg.2 _ v hmem
    rw [hi, hq] at hp
    cases hp
    rw [← hk, hk']
  have hI4 : ∀ k v', (k, v') ∈ GoMap.store r.apps (ToUpper appName)
      { v with enabled := true } → (v'.enabled = true ↔ v'.inst ∈ l ++ [v.inst]) := by
    intro k v' hm
    rcases (hmemst k v').mp hm with ⟨hk, hv⟩ | ⟨hk, hm'⟩
    · subst hv
      simp
    · rw [h5 k v' hm']
      have hne : v'.inst ≠ v.inst := fun e => hk (hinj k v' hm' e)
      simp [hne]
  have hI5 : ∀ a ∈ l ++ [v.inst], ∃ k v', (k, v') ∈ GoMap.store r.apps (ToUpper appName)
      { v with enabled := true } ∧ v'.inst = a := by
    intro a ha
    rcases List.mem_append.mp ha with ha | ha
    · obtain ⟨k, v0, hm, hi⟩ := h6 a ha
      have hk : k ≠ ToUpper appName := by
        intro e
        subst e
        have h0 := GoMap.get_of_mem _ hreg.1 _ _ hm
        rw [hget] at h0
        cases h0
        exact hx (hi ▸ ha)
      exact ⟨k, v0, (hmemst k v0).mpr (Or.inr ⟨hk, hm⟩), hi⟩
    · simp only [List.mem_singleton] at ha
      subst ha
      exact ⟨ToUpper appName, { v with enabled := true },
        (hmemst _ _).mpr (Or.inl ⟨rfl, rfl⟩), rfl⟩
  have hnd : (l ++ [v.inst]).Nodup := by
    rw [List.nodup_append]
    refine ⟨h3, List.nodup_singleton _, ?_⟩
    intro a ha hb
    simp only [List.mem_singleton] at hb
    exact hx (hb ▸ ha)
  have hE := Enable_success ToUpper r appName v app hget hdis hobj hinit hdep
  cases hh : r.head with
  | none =>
    have hl : l = [] := by
      rw [hh] at h1
      exact List.head?_eq_none_iff.mp h1.symm
    subst hl
    simp only [hh] at hE
    refine ⟨_, hE, ?_, ?_⟩
    · exact RegistryOK_update ToUpper r hreg _ _ _ _ hwf' happs'
        (fun i p hp => name_set r.objects v.inst app app.Init.1 hobj rfl i p hp)
    · refine ⟨rfl, rfl, hnd, ?_, hI4, hI5, ?_⟩
      · show nextOf (r.objects.set v.inst app.Init.1) v.inst = some none
        rw [hnext1]
        exact h7 _ hx hxlt
      · intro a ha hlt
        show nextOf (r.objects.set v.inst app.Init.1) a = some none
        rw [hnext1]
        exact h7 a (by simp) (by simpa using hlt)
  | some h0 =>
    have hne : l ≠ [] := by
      intro e
      subst e
      rw [hh] at h1
      simp at h1
    obtain ⟨t, ht⟩ : ∃ t, l.getLast? = some t := by
      cases hlast : l.getLast? with
      | none => exact absurd (List.getLast?_eq_none_iff.mp hlast) hne
      | some t => exact ⟨t, rfl⟩
    have htl : t ∈ l := List.mem_of_getLast?_eq_some ht
    have htlt : t < r.objects.length := Linked_valid _ _ h4 t htl
    have htx : t ≠ v.inst := fun e => hx (e ▸ htl)
    have htlt1 : t < (r.objects.set v.inst app.Init.1).length := by simpa using htlt
    have htail : r.tail = some t := h2.trans ht
    simp only [hh, htail, List.getElem?_eq_getElem htlt1] at hE
    refine ⟨_, hE, ?_, ?_⟩
    · apply RegistryOK_update ToUpper r hreg _ _ _ _ hwf' happs'
      intro i p hp
      obtain ⟨p1, hp1, hn1⟩ := name_set r.objects v.inst app app.Init.1 hobj rfl i p hp
      obtain ⟨p2, hp2, hn2⟩ := name_set (r.objects.set v.inst app.Init.1) t
        ((r.objects.set v.inst app.Init.1)[t])
        (((r.objects.set v.inst app.Init.1)[t]).SetNext v.inst)
        (List.getElem?_eq_getElem htlt1) rfl i p1 hp1
      exact ⟨p2, hp2, hn2.trans hn1⟩
    · have hother : ∀ a, a ≠ t →
          nextOf ((r.objects.set v.inst app.Init.1).set t
            (((r.objects.set v.inst app.Init.1)[t]).SetNext v.inst)) a =
          nextOf r.objects a := by
        intro a ha
        rw [← hnext1 a]
        simp only [nextOf]
        rw [List.getElem?_set_ne (Ne.symm ha)]
      have hnt : nextOf ((r.objects.set v.inst app.Init.1).set t
            (((r.objects.set v.inst app.Init.1)[t]).SetNext v.inst)) t =
          some (some v.inst) := by
        simp [nextOf, htlt, Processor.SetNext]
      have hnx : nextOf ((r.objects.set v.inst app.Init.1).set t
            (((r.objects.set v.inst app.Init.1)[t]).SetNext v.inst)) v.inst = some none := by
        rw [hother _ (Ne.symm htx)]
        exact h7 _ hx hxlt
      refine ⟨?_, ?_, hnd, ?_, hI4, hI5, ?_⟩
      · show some h0 = (l ++ [v.inst]).head?
        rw [List.head?_append_of_ne_nil _ hne, ← h1, hh]
      · show some v.inst = (l ++ [v.inst]).getLast?
        simp
      · exact Linked_append r.objects _ l t v.inst h4 ht h3 hnt hnx hother
      · intro a ha hlt
        have hat : a ≠ t := fun e => ha (List.mem_append_left _ (e ▸ htl))
        have hal : a ∉ l := fun e => ha (List.mem_append_left _ e)
        show nextOf ((r.objects.set v.inst app.Init.1).set t
            (((r.objects.set v.inst app.Init.1)[t]).SetNext v.inst)) a = some none
        rw [hother a hat]
        exact h7 a hal (by simpa using hlt)

/-- Every `Enable` call on a manager in order returns, keeps the manager in order, and appends
the instance registered under the name to the chain exactly when it returns `nil` for an
application that is not yet in the chain. -/
theorem Enable_step (r : Manager) (l : List Nat) (hreg : RegistryOK ToUpper r)
    (hch : HoldsChain r l) (appName : String) :
    ∃ r' e, Enable ToUpper r appName = some (r', e) ∧ RegistryOK ToUpper r' ∧
      HoldsChain r'
        (match e, GoMap.get r.apps (ToUpper appName) with
          | none, some v => if v.inst ∈ l then l else l ++ [v.inst]
          | _, _ => l) := by
  cases hget : GoMap.get r.apps (ToUpper appName) with
  | none => exact ⟨r, _, Enable_unknown ToUpper r appName hget, hreg, hch⟩
  | some v =>
    have hmem : (ToUpper appName, v) ∈ r.apps := GoMap.mem_of_get _ _ _ hget
    cases hen : v.enabled with
    | true =>
      refine ⟨r, none, Enable_enabled ToUpper r appName v hget hen, hreg, ?_⟩
      have hin : v.inst ∈ l := (hch.2.2.2.2.1 _ _ hmem).mp hen
      simpa [hin] using hch
    | false =>
      obtain ⟨app, hobj, _⟩ := hreg.2 _ _ hmem
      have hx : v.inst ∉ l := by
        intro hin
        have := (hch.2.2.2.2.1 _ _ hmem).mpr hin
        rw [hen] at this
        cases this
      cases hinit : app.initResult app.initCalls with
      | false =>
        obtain ⟨hr, hc⟩ := invariants_Init ToUpper r l v.inst app hreg hch hobj
        exact ⟨_, _, Enable_init_error ToUpper r appName v app hget hen hobj hinit, hr, hc⟩
      | true =>
        cases hdep : checkDependencies ToUpper r app.dependencies with
        | some name =>
          obtain ⟨hr, hc⟩ := invariants_Init ToUpper r l v.inst app hreg hch hobj
          exact ⟨_, _, Enable_dependency_error ToUpper r appName v app name hget hen hobj hinit
            hdep, hr, hc⟩
        | none =>
          obtain ⟨r', hE, hr, hc⟩ :=
            invariants_success ToUpper r l appName v app hreg hch hget hen hobj hinit hdep
          refine ⟨r', none, hE, hr, ?_⟩
          simpa [hx] using hc

theorem register_fold_invariant (specs : List AppSpec) (is : List Nat) (m : Manager)
    (hobjs : m.objects = specs.map AppSpec.New) (hhead : m.head = none) (htail : m.tail = none)
    (hreg : RegistryOK ToUpper m) (hdis : ∀ k v, (k, v) ∈ m.apps → v.enabled = false) :
    (is.foldl (register ToUpper) m).objects = specs.map AppSpec.New ∧
    (is.foldl (register ToUpper) m).head = none ∧
    (is.foldl (register ToUpper) m).tail = none ∧
    RegistryOK ToUpper (is.foldl (register ToUpper) m) ∧
    ∀ k v, (k, v) ∈ (is.foldl (register ToUpper) m).apps → v.enabled = false := by
  induction is generalizing m with
  | nil => exact ⟨hobjs, hhead, htail, hreg, hdis⟩
  | cons i is ih =>
    rw [List.foldl_cons]
    cases hi : m.objects[i]? with
    | none =>
      have : register ToUpper m i = m := by simp [register, hi]
      rw [this]
      exact ih m hobjs hhead htail hreg hdis
    | some p =>
      have hr : register ToUpper m i =
          { m with apps := GoMap.store m.apps (ToUpper p.name) { inst := i, enabled := false } } := by
        simp [register, hi]
      rw [hr]
      have hmemst := fun k v' =>
        GoMap.mem_store_iff m.apps hreg.1 (ToUpper p.name) k { inst := i, enabled := false } v'
      apply ih { m with apps := GoMap.store m.apps (ToUpper p.name) { inst := i, enabled := false } }
        hobjs hhead htail
      · refine ⟨GoMap.WF_store _ _ _ hreg.1, ?_⟩
        intro k v' hm
        rcases (hmemst k v').mp hm with ⟨hk, hv⟩ | ⟨_, hm'⟩
        · subst hk
          subst hv
          exact ⟨p, hi, rfl⟩
        · exact hreg.2 k v' hm'
      · intro k v' hm
        rcases (hmemst k v').mp hm with ⟨_, hv⟩ | ⟨_, hm'⟩
        · subst hv
          rfl
        · exact hdis k v' hm'

/-- The manager built by `NewManager` is in order and holds the empty chain. -/
theorem NewManager_invariants (specs : List AppSpec) :
    RegistryOK ToUpper (NewManager ToUpper specs) ∧ HoldsChain (NewManager ToUpper specs) [] := by
  obtain ⟨hobjs, hhead, htail, hreg, hdis⟩ :=
    register_fold_invariant ToUpper specs (List.range specs.length)
      { apps := [], head := none, tail := none, objects := specs.map AppSpec.New }
      rfl rfl rfl ⟨by simp [GoMap.WF, GoMap.keys], by simp⟩ (by simp)
  refine ⟨hreg, hhead, htail, List.nodup_nil, trivial, ?_, by simp, ?_⟩
  · intro k v hm
    simp [hdis k v hm]
  · intro a _ hlt
    simp only [NewManager] at hlt ⊢
    rw [hobjs] at hlt ⊢
    simp only [List.length_map] at hlt
    simp [nextOf, hlt, AppSpec.New]

theorem runEnables_append (r : Manager) (ns : List String) (n : String) :
    runEnables ToUpper r (ns ++ [n]) = enableStep ToUpper (runEnables ToUpper r ns) n := by
  simp [runEnables, List.foldl_append]

/-- Every run of `Enable` calls on a manager in order with chain `l0` returns, and leaves a
manager in order whose chain is `l0` extended with the first occurrences of the instances of
the calls that returned `nil`. -/
theorem runEnables_invariants (r : Manager) (hreg : RegistryOK ToUpper r)
    (hch : HoldsChain r []) (ns : List String) :
    ∃ run, runEnables ToUpper r ns = some run ∧ RegistryOK ToUpper run.manager ∧
      HoldsChain run.manager (firstOccurrences run.succeeded) ∧
      run.errors.length = ns.length := by
  induction ns using List.reverseRecOn with
  | nil => exact ⟨_, rfl, hreg, hch, rfl⟩
  | append_singleton ns n ih =>
    obtain ⟨run, hrun, hr, hc, hlen⟩ := ih
    obtain ⟨r', e, hE, hr', hc'⟩ :=
      Enable_step ToUpper run.manager (firstOccurrences run.succeeded) hr hc n
    rw [runEnables_append, hrun]
    simp only [enableStep, hE]
    refine ⟨_, rfl, hr', ?_, by simp [hlen]⟩
    show HoldsChain r' (firstOccurrences _)
    cases e with
    | some err =>
      simpa using hc'
    | none =>
      cases hget : GoMap.get run.manager.apps (ToUpper n) with
      | none => simpa [hget] using hc'
      | some v =>
        simp only [hget] at hc' ⊢
        rw [firstOccurrences_append]
        exact hc'

theorem Linked_last (objects : List Processor) (l : List Nat) (t : Nat)
    (hl : Linked objects l) (hlast : l.getLast? = some t) : nextOf objects t = some none := by
  induction l with
  | nil => simp at hlast
  | cons a rest ih =>
    cases rest with
    | nil =>
      simp only [List.getLast?_singleton, Option.some.injEq] at hlast
      subst hlast
      exact hl
    | cons b rest =>
      rw [List.getLast?_cons_cons] at hlast
      exact ih hl.2 hlast

theorem runEnables_replicate (r : Manager) (appName : String) (v : application)
    (hreg : GoMap.get r.apps (ToUpper appName) = some v) (hen : v.enabled = true) (k : Nat)
    (s : EnableRun) (hs : s.manager = r) :
    ∃ run, (List.replicate k appName).foldl (enableStep ToUpper) (some s) = some run ∧
      run.manager = r ∧ run.errors = s.errors ++ List.replicate k none := by
  induction k generalizing s with
  | zero => exact ⟨s, rfl, hs, by simp⟩
  | succ k ih =>
    have hE := Enable_enabled ToUpper r appName v hreg hen
    rw [List.replicate_succ, List.foldl_cons]
    simp only [enableStep, hs, hE]
    obtain ⟨run, hrun, hm, he⟩ := ih
      { manager := r
        errors := s.errors ++ [none]
        succeeded :=
          match (none : Option EnableError), GoMap.get r.apps (ToUpper appName) with
          | none, some v => s.succeeded ++ [v.inst]
          | _, _ => s.succeeded } rfl
    refine ⟨run, hrun, hm, ?_⟩
    rw [he]
    simp [List.replicate_succ]

theorem C3_Enable_dependency_error_iff_witness :
    GoMap.get exampleManager.apps (asciiUpper "b") = some ⟨1, false⟩ ∧
    (⟨1, false⟩ : application).enabled = false ∧
    exampleManager.objects[1]? = some ⟨"b", ["A"], fun _ => true, 0, none⟩ ∧
    (fun _ : Nat => true) 0 = true ∧
    ((∃ r' e, Enable asciiUpper exampleManager "b" = some (r', some e)) ↔
      ∃ d ∈ ["A"], unmet asciiUpper exampleManager d) ∧
    (∀ r' e, Enable asciiUpper exampleManager "b" = some (r', some e) →
      (∃ d ∈ ["A"], e = EnableError.checkingDependencies d ∧ unmet asciiUpper exampleManager d) ∧
      r'.head = exampleManager.head ∧ r'.tail = exampleManager.tail ∧
      r'.apps = exampleManager.apps ∧
      (∀ a, nextOf r'.objects a = nextOf exampleManager.objects a) ∧
      chain r' = chain exampleManager) ∧
    ((exampleManager.head ≠ none →
        ∃ t tp, exampleManager.tail = some t ∧ exampleManager.objects[t]? = some tp) →
      (¬ ∃ d ∈ ["A"], unmet asciiUpper exampleManager d) →
      ∃ r', Enable asciiUpper exampleManager "b" = some (r', none)) :=
  ⟨by decide, rfl, rfl, rfl,
    C3_Enable_dependency_error_iff asciiUpper exampleManager "b" ⟨1, false⟩
      ⟨"b", ["A"], fun _ => true, 0, none⟩ (by decide) rfl rfl rfl⟩

/-- C4: `Enable` is idempotent. When the application registered under the upper-cased name is
already enabled, `Enable` returns `nil` and leaves the whole manager as it is: the registrations
with their enabled flags, head, tail and every instance with its `next` link and its count of
`Init` calls; so does any number of repeated calls; and in a manager reached from `NewManager` by
`Enable` calls the instance of the application occurs exactly once in the chain. -/
theorem C4_Enable_idempotent (r : Manager) (appName : String) (v : application)
    (hreg : GoMap.get r.apps (ToUpper appName) = some v) (hen : v.enabled = true) :
    Enable ToUpper r appName = some (r, none) ∧
    (∀ k, ∃ run, runEnables ToUpper r (List.replicate k appName) = some run ∧
      run.manager = r ∧ run.errors = List.replicate k none) ∧
    (∀ specs appNames run0, runEnables ToUpper (NewManager ToUpper specs) appNames = some run0 →
      run0.manager = r → ∃ l, chain r = some l ∧ l.count v.inst = 1) := by
  refine ⟨Enable_enabled ToUpper r appName v hreg hen, ?_, ?_⟩
  · intro k
    obtain ⟨run, hrun, hm, he⟩ := runEnables_replicate ToUpper r appName v hreg hen k
      { manager := r, errors := [], succeeded := [] } rfl
    exact ⟨run, hrun, hm, by simpa using he⟩
  · intro specs appNames run0 hrun0 hm
    obtain ⟨hr0, hc0⟩ := NewManager_invariants ToUpper specs
    obtain ⟨run, hrun, hr, hc, _⟩ := runEnables_invariants ToUpper _ hr0 hc0 appNames
    rw [hrun0] at hrun
    cases hrun
    subst hm
    refine ⟨_, chain_of_HoldsChain _ _ hc, ?_⟩
    have hin : v.inst ∈ firstOccurrences run0.succeeded :=
      (hc.2.2.2.2.1 _ _ (GoMap.mem_of_get _ _ _ hreg)).mp hen
    exact List.count_eq_one_of_mem hc.2.2.1 hin

theorem C4_Enable_idempotent_witness :
    GoMap.get exampleManagerA.apps (asciiUpper "a") = some ⟨0, true⟩ ∧
    (⟨0, true⟩ : application).enabled = true ∧
    Enable asciiUpper exampleManagerA "a" = some (exampleManagerA, none) ∧
    (∀ k, ∃ run, runEnables asciiUpper exampleManagerA (List.replicate k "a") = some run ∧
      run.manager = exampleManagerA ∧ run.errors = List.replicate k none) ∧
    (∀ specs appNames run0,
      runEnables asciiUpper (NewManager asciiUpper specs) appNames = some run0 →
      run0.manager = exampleManagerA →
      ∃ l, chain exampleManagerA = some l ∧ l.count (⟨0, true⟩ : application).inst = 1) :=
  ⟨by decide, rfl,
    C4_Enable_idempotent asciiUpper exampleManagerA "a" ⟨0, true⟩ (by decide) rfl⟩

/-- C5: the chain invariant. After any sequence of `Enable` calls, successful or failing, on the
manager built by `NewManager`: every call has returned; the walk from `head` through the `next`
links ends within as many visits as there are instances; the instances visited are distinct, the
first is `head`, the last is `tail` and the tail has no successor; a registered application is
enabled if and only if its instance is visited, and every instance visited belongs to an enabled
registered application; distinct registrations have distinct instances; and the instances are
visited in the order in which the `Enable` calls of their applications first returned `nil`. -/
theorem C5_chain_invariant (specs : List AppSpec) (appNames : List String) :
    ∃ run l, runEnables ToUpper (NewManager ToUpper specs) appNames = some run ∧
      run.errors.length = appNames.length ∧
      chain run.manager = some l ∧
      l.Nodup ∧
      l.head? = run.manager.head ∧
      l.getLast? = run.manager.tail ∧
      (∀ t, run.manager.tail = some t → nextOf run.manager.objects t = some none) ∧
      (∀ k v, GoMap.get run.manager.apps k = some v → (v.inst ∈ l ↔ v.enabled = true)) ∧
      (∀ a ∈ l, ∃ k v, GoMap.get run.manager.apps k = some v ∧ v.inst = a ∧ v.enabled = true) ∧
      (∀ k v k' v', GoMap.get run.manager.apps k = some v →
        GoMap.get run.manager.apps k' = some v' → v.inst = v'.inst → k = k') ∧
      l = firstOccurrences run.succeeded := by
  obtain ⟨hr0, hc0⟩ := NewManager_invariants ToUpper specs
  obtain ⟨run, hrun, hr, hc, hlen⟩ := runEnables_invariants ToUpper _ hr0 hc0 appNames
  have hchain := chain_of_HoldsChain _ _ hc
  obtain ⟨h1, h2, h3, h4, h5, h6, h7⟩ := hc
  refine ⟨run, _, hrun, hlen, hchain, h3, h1.symm, h2.symm, ?_, ?_, ?_, ?_, rfl⟩
  · intro t ht
    exact Linked_last _ _ t h4 (h2.symm.trans ht)
  · intro k v hg
    exact (h5 k v (GoMap.mem_of_get _ _ _ hg)).symm
  · intro a ha
    obtain ⟨k, v, hm, hi⟩ := h6 a ha
    refine ⟨k, v, GoMap.get_of_mem _ hr.1 _ _ hm, hi, ?_⟩
    exact (h5 k v hm).mpr (hi ▸ ha)
  · intro k v k' v' hg hg' hi
    obtain ⟨p, hp, hk⟩ := hr.2 k v (GoMap.mem_of_get _ _ _ hg)
    obtain ⟨p', hp', hk'⟩ := hr.2 k' v' (GoMap.mem_of_get _ _ _ hg')
    rw [hi, hp'] at hp
    cases hp
    rw [← hk, ← hk']

end ManagerTheorems

end Cherry

/-! ## Further theorems about `Device` -/

namespace Cherry

section DeviceRunTheorems

variable {W F V M E : Type}

theorem GoMap.get_delete {K U : Type} [DecidableEq K] (m : GoMap K U) (k k' : K) :
    GoMap.get (GoMap.delete m k) k' = if k' = k then none else GoMap.get m k' := by
  induction m with
  | nil => simp [GoMap.delete, GoMap.get]
  | cons e rest ih =>
    obtain ⟨k0, v0⟩ := e
    simp only [GoMap.delete] at ih
    by_cases h0 : k0 = k
    · subst h0
      by_cases h1 : k' = k0
      · subst h1
        simpa [GoMap.delete, GoMap.get] using ih
      · have h2 : ¬ k0 = k' := fun c => h1 c.symm
        simpa [GoMap.delete, GoMap.get, h1, h2] using ih
    · by_cases h1 : k0 = k'
      · subst h1
        simp [GoMap.delete, GoMap.get, h0]
      · simp only [GoMap.delete, GoMap.get, h0, h1, List.filter_cons, ne_eq, not_false_eq_true,
          decide_True, if_true, if_false]
        exact ih

theorem UpdatePort_controllers (r : Device W F V) (num : Nat) (p : V) :
    (UpdatePort r num p).controllers = r.controllers := by
  simp only [UpdatePort]
  split
  · rfl
  · split <;> rfl

theorem DeviceCall_run_main_absent (r : Device W F V) (c : DeviceCall W F V)
    (hc : c.addsMain = false) (h : GoMap.get r.controllers 0 = none) :
    GoMap.get (c.run r).1.controllers 0 = none := by
  cases c with
  | setFactory f =>
    simp only [DeviceCall.run, SetFactory]
    split <;> exact h
  | addController id w =>
    have hid : (0 : Nat) ≠ id := by
      intro e
      subst e
      simp [DeviceCall.addsMain] at hc
    simp only [DeviceCall.run, AddController]
    rw [GoMap.get_store_ne _ _ _ _ hid]
    exact h
  | removeController id =>
    simp only [DeviceCall.run, RemoveController_device]
    rw [GoMap.get_delete]
    split
    · rfl
    · exact h
  | setDescriptions d => exact h
  | setFeatures f => exact h
  | addPort num p => exact h
  | updatePort num p =>
    simp only [DeviceCall.run, UpdatePort_controllers]
    exact h
  | setFlowTableID id => exact h

theorem runDeviceCalls_main_absent (r : Device W F V) (cs : List (DeviceCall W F V))
    (hcs : ∀ c ∈ cs, c.addsMain = false) (h : GoMap.get r.controllers 0 = none) :
    GoMap.get (runDeviceCalls r cs).1.controllers 0 = none := by
  induction cs generalizing r with
  | nil => exact h
  | cons c cs ih =>
    simp only [runDeviceCalls]
    apply ih
    · intro c' hc'
      exact hcs c' (List.mem_cons_of_mem _ hc')
    · exact DeviceCall_run_main_absent r c (hcs c (by simp)) h

/-- C11: on a device whose only registered connection is id 0, `RemoveController(0)` makes
exactly one watcher call, `DeviceRemoved` of this device, and leaves no connection; after it, and
after any further method calls among which there is no `AddController(0, ...)`, every
`SendMessage` returns the "no main connection" error and makes no `Write`. -/
theorem C11_RemoveController_then_SendMessage (r : Device W F V)
    (hmain : GoMap.keys r.controllers = [0]) :
    (RemoveController r 0).2 = [WatcherCall.DeviceRemoved r.id] ∧
    GoMap.len (RemoveController r 0).1.controllers = 0 ∧
    (∀ (Write : W → M → Option E) (msg : M) (cs : List (DeviceCall W F V)),
      (∀ c ∈ cs, c.addsMain = false) →
      (SendMessage Write (runDeviceCalls (RemoveController r 0).1 cs).1 msg).err =
        some SendError.notFoundMain ∧
      (SendMessage Write (runDeviceCalls (RemoveController r 0).1 cs).1 msg).writes = []) := by
  have hdel : GoMap.delete r.controllers 0 = [] := by
    rw [GoMap.delete_eq_nil_iff, hmain]
    simp
  have hdev := RemoveController_device r 0
  have hlen : GoMap.len (RemoveController r 0).1.controllers = 0 := by
    rw [hdev]
    simp [hdel, GoMap.len]
  refine ⟨?_, hlen, ?_⟩
  · rw [RemoveController_calls, if_pos hlen]
  · intro Write msg cs hcs
    have h0 : GoMap.get (RemoveController r 0).1.controllers 0 = none := by
      rw [hdev]
      simp [hdel, GoMap.get]
    have h1 := runDeviceCalls_main_absent _ cs hcs h0
    simp [SendMessage, h1]

theorem C11_RemoveController_then_SendMessage_witness :
    GoMap.keys (AddController (NewDevice "sw" : Device Unit Unit Unit) 0 ()).controllers = [0] ∧
    (RemoveController (AddController (NewDevice "sw" : Device Unit Unit Unit) 0 ()) 0).2 =
      [WatcherCall.DeviceRemoved (AddController (NewDevice "sw" : Device Unit Unit Unit) 0 ()).id] ∧
    GoMap.len
      (RemoveController (AddController (NewDevice "sw" : Device Unit Unit Unit) 0 ()) 0).1.controllers
        = 0 ∧
    (∀ (Write : Unit → Nat → Option Nat) (msg : Nat) (cs : List (DeviceCall Unit Unit Unit)),
      (∀ c ∈ cs, c.addsMain = false) →
      (SendMessage Write (runDeviceCalls
        (RemoveController (AddController (NewDevice "sw" : Device Unit Unit Unit) 0 ()) 0).1
          cs).1 msg).err = some SendError.notFoundMain ∧
      (SendMessage Write (runDeviceCalls
        (RemoveController (AddController (NewDevice "sw" : Device Unit Unit Unit) 0 ()) 0).1
          cs).1 msg).writes = []) :=
  ⟨by decide,
    C11_RemoveController_then_SendMessage
      (AddController (NewDevice "sw" : Device Unit Unit Unit) 0 ()) (by decide)⟩

/-- C17: `SetDescriptions(d)`, `SetFeatures(f)` and `SetFlowTableID(id)` each make the matching
getter return the value just set, change no other field of the device (id, the two other
values, factory, port table, Port objects, controller table) and make no watcher call. -/
theorem C17_setters_independent (r : Device W F V) (d : Descriptions) (f : Features)
    (id : Nat) :
    (getDescriptions (SetDescriptions r d) = d ∧
      SetDescriptions r d = { r with descriptions := d } ∧
      (SetDescriptions r d).id = r.id ∧
      (SetDescriptions r d).features = r.features ∧
      (SetDescriptions r d).flowTableID = r.flowTableID ∧
      (SetDescriptions r d).factory = r.factory ∧
      (SetDescriptions r d).ports = r.ports ∧
      (SetDescriptions r d).portObjects = r.portObjects ∧
      (SetDescriptions r d).controllers = r.controllers ∧
      ((DeviceCall.setDescriptions d).run r).2 = []) ∧
    (getFeatures (SetFeatures r f) = f ∧
      SetFeatures r f = { r with features := f } ∧
      (SetFeatures r f).id = r.id ∧
      (SetFeatures r f).descriptions = r.descriptions ∧
      (SetFeatures r f).flowTableID = r.flowTableID ∧
      (SetFeatures r f).factory = r.factory ∧
      (SetFeatures r f).ports = r.ports ∧
      (SetFeatures r f).portObjects = r.portObjects ∧
      (SetFeatures r f).controllers = r.controllers ∧
      ((DeviceCall.setFeatures f).run r).2 = []) ∧
    (FlowTableID (SetFlowTableID r id) = id ∧
      SetFlowTableID r id = { r with flowTableID := id } ∧
      (SetFlowTableID r id).id = r.id ∧
      (SetFlowTableID r id).descriptions = r.descriptions ∧
      (SetFlowTableID r id).features = r.features ∧
      (SetFlowTableID r id).factory = r.factory ∧
      (SetFlowTableID r id).ports = r.ports ∧
      (SetFlowTableID r id).portObjects = r.portObjects ∧
      (SetFlowTableID r id).controllers = r.controllers ∧
      ((DeviceCall.setFlowTableID id).run r).2 = []) :=
  ⟨⟨rfl, rfl, rfl, rfl, rfl, rfl, rfl, rfl, rfl, rfl⟩,
    ⟨rfl, rfl, rfl, rfl, rfl, rfl, rfl, rfl, rfl, rfl⟩,
    ⟨rfl, rfl, rfl, rfl, rfl, rfl, rfl, rfl, rfl, rfl⟩⟩

end DeviceRunTheorems

end Cherry

/-! ## Further theorems about `Manager` -/

namespace Cherry

section ManagerRunTheorems

variable (ToUpper : String → String)

/-- The outcomes of a returning `Enable` call, case by case. -/
theorem Enable_cases (r : Manager) (appName : String) (r' : Manager) (e : Option EnableError)
    (h : Enable ToUpper r appName = some (r', e)) :
    (GoMap.get r.apps (ToUpper appName) = none ∧ r' = r ∧
      e = some (EnableError.unknownApplication appName)) ∨
    (∃ v, GoMap.get r.apps (ToUpper appName) = some v ∧ v.enabled = true ∧ r' = r ∧ e = none) ∨
    (∃ v app, GoMap.get r.apps (ToUpper appName) = some v ∧ v.enabled = false ∧
      r.objects[v.inst]? = some app ∧
      r' = { r with objects := r.objects.set v.inst app.Init.1 } ∧
      ((app.initResult app.initCalls = false ∧ e = some EnableError.initializing) ∨
        (app.initResult app.initCalls = true ∧ ∃ name,
          checkDependencies ToUpper r app.dependencies = some name ∧
          e = some (EnableError.checkingDependencies name)))) ∨
    (∃ v app, GoMap.get r.apps (ToUpper appName) = some v ∧ v.enabled = false ∧
      r.objects[v.inst]? = some app ∧ app.initResult app.initCalls = true ∧
      checkDependencies ToUpper r app.dependencies = none ∧ e = none ∧
      ((r.head = none ∧
        r' = { apps := GoMap.store r.apps (ToUpper appName) { v with enabled := true }
               head := some v.inst
               tail := some v.inst
               objects := r.objects.set v.inst app.Init.1 }) ∨
       (∃ t tp, r.head ≠ none ∧ r.tail = some t ∧
        (r.objects.set v.inst app.Init.1)[t]? = some tp ∧
        r' = { apps := GoMap.store r.apps (ToUpper appName) { v with enabled := true }
               head := r.head
               tail := some v.inst
               objects := (r.objects.set v.inst app.Init.1).set t (tp.SetNext v.inst) }))) := by
  cases hget : GoMap.get r.apps (ToUpper appName) with
  | none =>
    rw [Enable_unknown ToUpper r appName hget] at h
    simp only [Option.some.injEq, Prod.mk.injEq] at h
    exact Or.inl ⟨rfl, h.1.symm, h.2.symm⟩
  | some v =>
    cases hen : v.enabled with
    | true =>
      rw [Enable_enabled ToUpper r appName v hget hen] at h
      simp only [Option.some.injEq, Prod.mk.injEq] at h
      exact Or.inr (Or.inl ⟨v, rfl, hen, h.1.symm, h.2.symm⟩)
    | false =>
      cases hobj : r.objects[v.inst]? with
      | none => simp [Enable, hget, hen, hobj] at h
      | some app =>
        cases hinit : app.initResult app.initCalls with
        | false =>
          rw [Enable_init_error ToUpper r appName v app hget hen hobj hinit] at h
          simp only [Option.some.injEq, Prod.mk.injEq] at h
          exact Or.inr (Or.inr (Or.inl ⟨v, app, rfl, hen, hobj, h.1.symm,
            Or.inl ⟨hinit, h.2.symm⟩⟩))
        | true =>
          cases hdep : checkDependencies ToUpper r app.dependencies with
          | some name =>
            rw [Enable_dependency_error ToUpper r appName v app name hget hen hobj hinit
              hdep] at h
            simp only [Option.some.injEq, Prod.mk.injEq] at h
            exact Or.inr (Or.inr (Or.inl ⟨v, app, rfl, hen, hobj, h.1.symm,
              Or.inr ⟨hinit, name, hdep, h.2.symm⟩⟩))
          | none =>
            rw [Enable_success ToUpper r appName v app hget hen hobj hinit hdep] at h
            refine Or.inr (Or.inr (Or.inr ⟨v, app, rfl, hen, hobj, hinit, hdep, ?_⟩))
            cases hh : r.head with
            | none =>
              simp only [hh, Option.some.injEq, Prod.mk.injEq] at h
              exact ⟨h.2.symm, Or.inl ⟨rfl, h.1.symm⟩⟩
            | some h0 =>
              cases ht : r.tail with
              | none => simp [hh, ht] at h
              | some t =>
                cases htp : (r.objects.set v.inst app.Init.1)[t]? with
                | none => simp [hh, ht, htp] at h
                | some tp =>
                  simp only [hh, ht, htp, Option.some.injEq, Prod.mk.injEq] at h
                  exact ⟨h.2.symm, Or.inr ⟨t, tp, by simp, rfl, htp, h.1.symm⟩⟩

theorem mem_keys_store (m : GoMap String application) (k k' : String) (v : application) :
    k' ∈ GoMap.keys (GoMap.store m k v) ↔ k' = k ∨ k' ∈ GoMap.keys m := by
  rw [← GoMap.get_isSome_iff, ← GoMap.get_isSome_iff]
  by_cases h : k' = k
  · subst h
    simp [GoMap.get_store_eq]
  · rw [GoMap.get_store_ne _ _ _ _ h]
    simp [h]

theorem Enable_keys (r : Manager) (appName : String) (r' : Manager) (e : Option EnableError)
    (h : Enable ToUpper r appName = some (r', e)) :
    GoMap.keys r'.apps = GoMap.keys r.apps := by
  rcases Enable_cases ToUpper r appName r' e h with
    ⟨_, hr, _⟩ | ⟨v, _, _, hr, _⟩ | ⟨v, app, _, _, _, hr, _⟩ |
    ⟨v, app, hget, _, _, _, _, _, hr⟩
  · rw [hr]
  · rw [hr]
  · rw [hr]
  · have hk : ToUpper appName ∈ GoMap.keys r.apps := by
      rw [← GoMap.get_isSome_iff, hget]
      rfl
    rcases hr with ⟨_, hr⟩ | ⟨t, tp, _, _, _, hr⟩
    · rw [hr]
      exact GoMap.keys_store_of_mem _ _ _ hk
    · rw [hr]
      exact GoMap.keys_store_of_mem _ _ _ hk

theorem runEnables_snoc (r : Manager) (ns : List String) (n : String) (run' : EnableRun)
    (h : runEnables ToUpper r (ns ++ [n]) = some run') :
    ∃ run r1 e, runEnables ToUpper r ns = some run ∧
      Enable ToUpper run.manager n = some (r1, e) ∧
      run'.manager = r1 ∧ run'.errors = run.errors ++ [e] := by
  rw [runEnables_append] at h
  cases hrun : runEnables ToUpper r ns with
  | none => simp [hrun, enableStep] at h
  | some run =>
    cases hE : Enable ToUpper run.manager n with
    | none => simp [hrun, enableStep, hE] at h
    | some res =>
      obtain ⟨r1, e⟩ := res
      simp only [hrun, enableStep, hE, Option.some.injEq] at h
      subst h
      exact ⟨run, r1, e, rfl, hE, rfl, rfl⟩

theorem runEnables_keys (r : Manager) (ns : List String) (run : EnableRun)
    (h : runEnables ToUpper r ns = some run) :
    GoMap.keys run.manager.apps = GoMap.keys r.apps := by
  induction ns using List.reverseRecOn generalizing run with
  | nil =>
    simp only [runEnables, List.foldl_nil, Option.some.injEq] at h
    subst h
    rfl
  | append_singleton ns n ih =>
    obtain ⟨run0, r1, e, hrun0, hE, hm, _⟩ := runEnables_snoc ToUpper r ns n run h
    rw [hm, Enable_keys ToUpper _ n r1 e hE]
    exact ih run0 hrun0

theorem register_fold_keys (is : List Nat) (m : Manager) (k : String) :
    ((is.foldl (register ToUpper) m).objects = m.objects) ∧
    (k ∈ GoMap.keys (is.foldl (register ToUpper) m).apps ↔
      k ∈ GoMap.keys m.apps ∨ ∃ i ∈ is, ∃ p, m.objects[i]? = some p ∧ ToUpper p.name = k) := by
  induction is generalizing m with
  | nil => simp
  | cons i is ih =>
    rw [List.foldl_cons]
    cases hi : m.objects[i]? with
    | none =>
      have hr : register ToUpper m i = m := by simp [register, hi]
      rw [hr]
      refine ⟨(ih m).1, ?_⟩
      rw [(ih m).2]
      constructor
      · rintro (h | ⟨j, hj, p, hp, hk⟩)
        · exact Or.inl h
        · exact Or.inr ⟨j, List.mem_cons_of_mem _ hj, p, hp, hk⟩
      · rintro (h | ⟨j, hj, p, hp, hk⟩)
        · exact Or.inl h
        · rcases List.mem_cons.mp hj with hj | hj
          · subst hj
            rw [hi] at hp
            cases hp
          · exact Or.inr ⟨j, hj, p, hp, hk⟩
    | some q =>
      have hr : register ToUpper m i =
          { m with apps := GoMap.store m.apps (ToUpper q.name) { inst := i, enabled := false } } := by
        simp [register, hi]
      rw [hr]
      obtain ⟨ho, hk⟩ := ih
        { m with apps := GoMap.store m.apps (ToUpper q.name) { inst := i, enabled := false } }
      refine ⟨ho, ?_⟩
      rw [hk, mem_keys_store]
      constructor
      · rintro ((h | h) | ⟨j, hj, p, hp, hk⟩)
        · exact Or.inr ⟨i, by simp, q, hi, h.symm⟩
        · exact Or.inl h
        · exact Or.inr ⟨j, List.mem_cons_of_mem _ hj, p, hp, hk⟩
      · rintro (h | ⟨j, hj, p, hp, hk⟩)
        · exact Or.inl (Or.inr h)
        · rcases List.mem_cons.mp hj with hj | hj
          · subst hj
            rw [hi] at hp
            cases hp
            exact Or.inl (Or.inl hk.symm)
          · exact Or.inr ⟨j, hj, p, hp, hk⟩

/-- The keys of the registry built by `NewManager` are the upper-cased names of the registered
applications. -/
theorem NewManager_keys (specs : List AppSpec) (k : String) :
    k ∈ GoMap.keys (NewManager ToUpper specs).apps ↔ ∃ s ∈ specs, ToUpper s.name = k := by
  simp only [NewManager]
  rw [(register_fold_keys ToUpper _ _ k).2]
  simp only [GoMap.keys, List.map_nil, List.not_mem_nil, false_or, List.mem_range]
  constructor
  · rintro ⟨i, hi, p, hp, hk⟩
    rw [List.getElem?_map] at hp
    cases hs : specs[i]? with
    | none => simp [hs] at hp
    | some s0 =>
      simp only [hs, Option.map_some', Option.some.injEq] at hp
      subst hp
      exact ⟨s0, List.getElem?_mem hs, hk⟩
  · rintro ⟨s0, hs, hk⟩
    obtain ⟨i, hi, hget⟩ := List.getElem_of_mem hs
    refine ⟨i, hi, AppSpec.New s0, ?_, hk⟩
    rw [List.getElem?_map, List.getElem?_eq_getElem hi, hget]
    rfl

/-- C12: `Enable(name)` returns the "unknown application" error if and only if the registry has
no entry under the upper-cased name; it then returns the manager exactly as it was (no `Init`
call, no change of an enabled flag or a chain link); and in a manager reached from `NewManager`
by `Enable` calls the registry has no entry under that key exactly when no application passed to
`register` has that upper-cased name. -/
theorem C12_Enable_unknown_iff (r : Manager) (appName : String) :
    ((∃ r' n, Enable ToUpper r appName = some (r', some (EnableError.unknownApplication n))) ↔
      GoMap.get r.apps (ToUpper appName) = none) ∧
    (GoMap.get r.apps (ToUpper appName) = none →
      Enable ToUpper r appName = some (r, some (EnableError.unknownApplication appName))) ∧
    (∀ r' n, Enable ToUpper r appName = some (r', some (EnableError.unknownApplication n)) →
      r' = r ∧ n = appName) ∧
    (∀ specs appNames run, runEnables ToUpper (NewManager ToUpper specs) appNames = some run →
      run.manager = r →
      (GoMap.get r.apps (ToUpper appName) = none ↔
        ∀ s ∈ specs, ToUpper s.name ≠ ToUpper appName)) := by
  have hback : ∀ r' n,
      Enable ToUpper r appName = some (r', some (EnableError.unknownApplication n)) →
      GoMap.get r.apps (ToUpper appName) = none ∧ r' = r ∧ n = appName := by
    intro r' n h
    rcases Enable_cases ToUpper r appName r' _ h with
      ⟨hg, hr, he⟩ | ⟨v, _, _, _, he⟩ | ⟨v, app, _, _, _, _, he⟩ |
      ⟨v, app, _, _, _, _, _, he, _⟩
    · simp only [Option.some.injEq, EnableError.unknownApplication.injEq] at he
      exact ⟨hg, hr, he⟩
    · cases he
    · rcases he with ⟨_, he⟩ | ⟨_, name, _, he⟩ <;> cases he
    · cases he
  refine ⟨⟨?_, ?_⟩, Enable_unknown ToUpper r appName, ?_, ?_⟩
  · rintro ⟨r', n, h⟩
    exact (hback r' n h).1
  · intro hg
    exact ⟨r, appName, Enable_unknown ToUpper r appName hg⟩
  · intro r' n h
    exact (hback r' n h).2
  · intro specs appNames run hrun hm
    subst hm
    rw [GoMap.get_eq_none_iff, runEnables_keys ToUpper _ _ run hrun, NewManager_keys]
    simp

/-- C13: `Enable` is atomic on failure. Whenever `Enable` returns an error, the registry (its
entries and their enabled flags), `head`, `tail`, every `next` link and the chain walked from the
head are as before the call; and for a registered, not enabled application whose `Init` fails,
`Enable` returns the wrapped `Init` error and the application is still registered and not
enabled. -/
theorem C13_Enable_atomic_on_failure (r : Manager) (appName : String) :
    (∀ r' err, Enable ToUpper r appName = some (r', some err) →
      r'.apps = r.apps ∧ r'.head = r.head ∧ r'.tail = r.tail ∧
      (∀ a, nextOf r'.objects a = nextOf r.objects a) ∧
      r'.objects.length = r.objects.length ∧
      chain r' = chain r) ∧
    (∀ v app, GoMap.get r.apps (ToUpper appName) = some v → v.enabled = false →
      r.objects[v.inst]? = some app → app.initResult app.initCalls = false →
      ∃ r', Enable ToUpper r appName = some (r', some EnableError.initializing) ∧
        GoMap.get r'.apps (ToUpper appName) = some v) := by
  constructor
  · intro r' err h
    have hinit : ∀ (v : application) (app : Processor), r.objects[v.inst]? = some app →
        r' = { r with objects := r.objects.set v.inst app.Init.1 } →
        r'.apps = r.apps ∧ r'.head = r.head ∧ r'.tail = r.tail ∧
        (∀ a, nextOf r'.objects a = nextOf r.objects a) ∧
        r'.objects.length = r.objects.length ∧ chain r' = chain r := by
      intro v app hobj hr
      have hnext : ∀ a, nextOf (r.objects.set v.inst app.Init.1) a = nextOf r.objects a :=
        fun a => nextOf_set_eq r.objects v.inst app app.Init.1 hobj rfl a
      subst hr
      refine ⟨rfl, rfl, rfl, hnext, by simp, ?_⟩
      simp only [chain, List.length_set]
      exact walk_congr _ _ hnext _ _
    rcases Enable_cases ToUpper r appName r' _ h with
      ⟨_, hr, _⟩ | ⟨v, _, _, _, he⟩ | ⟨v, app, _, _, hobj, hr, _⟩ |
      ⟨v, app, _, _, _, _, _, he, _⟩
    · subst hr
      exact ⟨rfl, rfl, rfl, fun _ => rfl, rfl, rfl⟩
    · cases he
    · exact hinit v app hobj hr
    · cases he
  · intro v app hget hdis hobj hinit
    exact ⟨_, Enable_init_error ToUpper r appName v app hget hdis hobj hinit, hget⟩

theorem C13_Enable_atomic_on_failure_witness :
    ∃ r', Enable asciiUpper exampleManager "b" =
        some (r', some (EnableError.checkingDependencies "A")) ∧
      r'.apps = exampleManager.apps ∧ r'.head = exampleManager.head ∧
      r'.tail = exampleManager.tail ∧
      (∀ a, nextOf r'.objects a = nextOf exampleManager.objects a) ∧
      r'.objects.length = exampleManager.objects.length ∧
      chain r' = chain exampleManager :=
  ⟨_, Enable_dependency_error asciiUpper exampleManager "b" ⟨1, false⟩
      ⟨"b", ["A"], fun _ => true, 0, none⟩ "A" (by decide) rfl rfl rfl (by decide),
    (C13_Enable_atomic_on_failure asciiUpper exampleManager "b").1 _ _
      (Enable_dependency_error asciiUpper exampleManager "b" ⟨1, false⟩
        ⟨"b", ["A"], fun _ => true, 0, none⟩ "A" (by decide) rfl rfl rfl (by decide))⟩

/-- C14: application names are case-insensitive. For two names with the same upper-cased form,
`Enable` gives the same resulting manager and the same outcome: `nil` in both cases or errors of
the same kind; the two calls return the very same value unless the name is unknown, where the
error only differs in the name it quotes. And a dependency name passes the dependency check
exactly when an enabled application is registered under its upper-cased form, so equally for two
names with the same upper-cased form. -/
theorem C14_names_case_insensitive (r : Manager) (n1 n2 : String)
    (h : ToUpper n1 = ToUpper n2) :
    ((Enable ToUpper r n1).map (fun x => (x.1, x.2.map EnableError.kind)) =
      (Enable ToUpper r n2).map (fun x => (x.1, x.2.map EnableError.kind))) ∧
    (GoMap.get r.apps (ToUpper n1) ≠ none → Enable ToUpper r n1 = Enable ToUpper r n2) ∧
    (checkDependencies ToUpper r [n1] = none ↔
      ∃ w, GoMap.get r.apps (ToUpper n1) = some w ∧ w.enabled = true) ∧
    (checkDependencies ToUpper r [n1] = none ↔ checkDependencies ToUpper r [n2] = none) := by
  have hsame : GoMap.get r.apps (ToUpper n1) ≠ none →
      Enable ToUpper r n1 = Enable ToUpper r n2 := by
    intro hne
    cases hget : GoMap.get r.apps (ToUpper n2) with
    | none =>
      rw [h] at hne
      exact absurd hget hne
    | some v => simp only [Enable, h, hget]
  have hdep : ∀ n, checkDependencies ToUpper r [n] = none ↔
      ∃ w, GoMap.get r.apps (ToUpper n) = some w ∧ w.enabled = true := by
    intro n
    simp only [checkDependencies]
    cases hget : GoMap.get r.apps (ToUpper n) with
    | none => simp
    | some w => cases hw : w.enabled <;> simp [hw]
  refine ⟨?_, hsame, hdep n1, ?_⟩
  · cases hget : GoMap.get r.apps (ToUpper n1) with
    | none =>
      have hget2 : GoMap.get r.apps (ToUpper n2) = none := by
        rw [← h]
        exact hget
      rw [Enable_unknown ToUpper r n1 hget, Enable_unknown ToUpper r n2 hget2]
      rfl
    | some v =>
      rw [hsame (by simp [hget])]
  · rw [hdep n1, hdep n2, h]

theorem C14_names_case_insensitive_witness :
    asciiUpper "b" = asciiUpper "B" ∧
    ((Enable asciiUpper exampleManagerA "b").map (fun x => (x.1, x.2.map EnableError.kind)) =
      (Enable asciiUpper exampleManagerA "B").map (fun x => (x.1, x.2.map EnableError.kind))) ∧
    (GoMap.get exampleManagerA.apps (asciiUpper "b") ≠ none →
      Enable asciiUpper exampleManagerA "b" = Enable asciiUpper exampleManagerA "B") ∧
    (checkDependencies asciiUpper exampleManagerA ["b"] = none ↔
      ∃ w, GoMap.get exampleManagerA.apps (asciiUpper "b") = some w ∧ w.enabled = true) ∧
    (checkDependencies asciiUpper exampleManagerA ["b"] = none ↔
      checkDependencies asciiUpper exampleManagerA ["B"] = none) :=
  ⟨by decide, C14_names_case_insensitive asciiUpper exampleManagerA "b" "B" (by decide)⟩

/-- C15: `AddEventSender(sender)` calls `sender.SetEventListener` exactly once, with the head,
when the manager has a head, makes no call when it has none, and leaves the manager as it is in
both cases; and in a manager reached from `NewManager` by `Enable` calls there is a head, the
first instance of the chain, exactly when some registered application is enabled. -/
theorem C15_AddEventSender (r : Manager) :
    (∀ h, r.head = some h → AddEventSender r = (r, [h])) ∧
    (r.head = none → AddEventSender r = (r, [])) ∧
    (AddEventSender r).1 = r ∧
    (∀ specs appNames run, runEnables ToUpper (NewManager ToUpper specs) appNames = some run →
      run.manager = r →
      ((∃ k v, GoMap.get r.apps k = some v ∧ v.enabled = true) →
        ∃ h l, chain r = some (h :: l) ∧ AddEventSender r = (r, [h])) ∧
      ((¬ ∃ k v, GoMap.get r.apps k = some v ∧ v.enabled = true) →
        chain r = some [] ∧ AddEventSender r = (r, []))) := by
  have h1 : ∀ h, r.head = some h → AddEventSender r = (r, [h]) := by
    intro h hh
    simp [AddEventSender, hh]
  have h2 : r.head = none → AddEventSender r = (r, []) := by
    intro hh
    simp [AddEventSender, hh]
  refine ⟨h1, h2, ?_, ?_⟩
  · cases hh : r.head with
    | none => rw [h2 hh]
    | some h => rw [h1 h hh]
  · intro specs appNames run0 hrun0 hm
    obtain ⟨hr0, hc0⟩ := NewManager_invariants ToUpper specs
    obtain ⟨run, hrun, hr, hc, _⟩ := runEnables_invariants ToUpper _ hr0 hc0 appNames
    rw [hrun0] at hrun
    cases hrun
    subst hm
    have hchain := chain_of_HoldsChain _ _ hc
    obtain ⟨hhead, _, _, _, h5, h6, _⟩ := hc
    cases hl : firstOccurrences run0.succeeded with
    | nil =>
      rw [hl] at hchain hhead h5
      constructor
      · rintro ⟨k, v, hg, hen⟩
        have := (h5 k v (GoMap.mem_of_get _ _ _ hg)).mp hen
        simp at this
      · intro _
        exact ⟨hchain, h2 hhead⟩
    | cons a l =>
      rw [hl] at hchain hhead h6
      constructor
      · intro _
        exact ⟨a, l, hchain, h1 a hhead⟩
      · intro hno
        obtain ⟨k, v, hm, hi⟩ := h6 a (by simp)
        have hin : v.inst ∈ firstOccurrences run0.succeeded := by
          rw [hl, hi]
          simp
        exact absurd ⟨k, v, GoMap.get_of_mem _ hr.1 _ _ hm,
          (h5 k v hm).mpr hin⟩ hno

theorem initCallsOf_set_eq (objects : List Processor) (i : Nat) (p q : Processor)
    (hp : objects[i]? = some p) (hq : q.initCalls = p.initCalls) (a : Nat) :
    initCallsOf (objects.set i q) a = initCallsOf objects a := by
  simp only [initCallsOf]
  by_cases ha : i = a
  · subst ha
    have hlt := getElem?_lt objects i p hp
    simp [hp, hq, hlt]
  · rw [List.getElem?_set_ne ha]

theorem initCallsOf_set_Init (objects : List Processor) (i : Nat) (app : Processor)
    (hp : objects[i]? = some app) (a : Nat) :
    initCallsOf (objects.set i app.Init.1) a =
      if a = i then some (app.initCalls + 1) else initCallsOf objects a := by
  simp only [initCallsOf]
  by_cases ha : a = i
  · subst ha
    have hlt := getElem?_lt objects a app hp
    simp [hlt, Processor.Init]
  · rw [List.getElem?_set_ne (fun e => ha e.symm)]
    simp [ha]

theorem attemptsUntilSuccess_append_of_mem (l : List (Option EnableError))
    (e : Option EnableError) (h : none ∈ l) :
    attemptsUntilSuccess (l ++ [e]) = attemptsUntilSuccess l := by
  induction l with
  | nil => simp at h
  | cons x rest ih =>
    cases x with
    | none => simp [attemptsUntilSuccess]
    | some err =>
      have hr : none ∈ rest := by simpa using h
      simp [attemptsUntilSuccess, ih hr]

theorem attemptsUntilSuccess_append_of_not_mem (l : List (Option EnableError))
    (e : Option EnableError) (h : none ∉ l) :
    attemptsUntilSuccess (l ++ [e]) = attemptsUntilSuccess l + 1 := by
  induction l with
  | nil => cases e <;> simp [attemptsUntilSuccess]
  | cons x rest ih =>
    cases x with
    | none => simp at h
    | some err =>
      have hr : none ∉ rest := by
        intro c
        exact h (List.mem_cons_of_mem _ c)
      simp [attemptsUntilSuccess, ih hr]

theorem attemptsUntilSuccess_pos (l : List (Option EnableError)) (h : none ∈ l) :
    1 ≤ attemptsUntilSuccess l := by
  cases l with
  | nil => simp at h
  | cons x rest => cases x <;> simp [attemptsUntilSuccess]

theorem outcomesFor_append (k : String) (appNames : List String)
    (errors : List (Option EnableError)) (n : String) (e : Option EnableError)
    (hlen : errors.length = appNames.length) :
    outcomesFor ToUpper k (appNames ++ [n]) (errors ++ [e]) =
      outcomesFor ToUpper k appNames errors ++ (if ToUpper n = k then [e] else []) := by
  simp only [outcomesFor]
  rw [List.zip_append hlen.symm, List.filter_append, List.map_append]
  by_cases h : ToUpper n = k <;> simp [h]

/-- One `Enable` call keeps the account of `Init` calls: the instance of every registered
application has had as many `Init` calls as there were `Enable` calls under its key up to and
including the first that returned `nil`, and the application is enabled exactly when one did. -/
theorem initCalls_step (r : Manager) (appNames : List String)
    (errors : List (Option EnableError)) (hlen : errors.length = appNames.length)
    (hreg : RegistryOK ToUpper r)
    (hJ : ∀ k v, (k, v) ∈ r.apps →
      initCallsOf r.objects v.inst =
        some (attemptsUntilSuccess (outcomesFor ToUpper k appNames errors)) ∧
      (v.enabled = true ↔ none ∈ outcomesFor ToUpper k appNames errors))
    (n : String) (r' : Manager) (e : Option EnableError)
    (hE : Enable ToUpper r n = some (r', e)) :
    ∀ k v, (k, v) ∈ r'.apps →
      initCallsOf r'.objects v.inst =
        some (attemptsUntilSuccess (outcomesFor ToUpper k (appNames ++ [n]) (errors ++ [e]))) ∧
      (v.enabled = true ↔ none ∈ outcomesFor ToUpper k (appNames ++ [n]) (errors ++ [e])) := by
  have hother : ∀ k, ToUpper n ≠ k →
      outcomesFor ToUpper k (appNames ++ [n]) (errors ++ [e]) =
        outcomesFor ToUpper k appNames errors := by
    intro k hk
    rw [outcomesFor_append ToUpper k appNames errors n e hlen]
    simp [hk]
  have hself : outcomesFor ToUpper (ToUpper n) (appNames ++ [n]) (errors ++ [e]) =
      outcomesFor ToUpper (ToUpper n) appNames errors ++ [e] := by
    rw [outcomesFor_append ToUpper _ appNames errors n e hlen]
    simp
  have hinj : ∀ k v v0, (k, v) ∈ r.apps → (ToUpper n, v0) ∈ r.apps → v.inst = v0.inst →
      ToUpper n = k := by
    intro k v v0 hm hm0 hi
    obtain ⟨p, hp, hk⟩ := hreg.2 k v hm
    obtain ⟨q, hq, hk'⟩ := hreg.2 _ v0 hm0
    rw [hi, hq] at hp
    cases hp
    rw [← hk, hk']
  intro k v' hmem'
  rcases Enable_cases ToUpper r n r' e hE with
    ⟨hg, hr, he⟩ | ⟨v, hg, hen, hr, he⟩ | ⟨v, app, hg, hdis, hobj, hr, he⟩ |
    ⟨v, app, hg, hdis, hobj, _, _, he, hr⟩
  · -- unknown application
    subst hr
    have hk : ToUpper n ≠ k := by
      intro c
      subst c
      have := GoMap.get_of_mem _ hreg.1 _ _ hmem'
      rw [hg] at this
      cases this
    rw [hother k hk]
    exact hJ k v' hmem'
  · -- already enabled
    subst hr
    subst he
    by_cases hk : ToUpper n = k
    · subst hk
      have hv : v' = v := by
        have := GoMap.get_of_mem _ hreg.1 _ _ hmem'
        rw [hg] at this
        exact (Option.some.inj this).symm
      subst hv
      have hin := (hJ _ v' hmem').2.mp hen
      rw [hself, attemptsUntilSuccess_append_of_mem _ _ hin]
      exact ⟨(hJ _ v' hmem').1, by simp [hen]⟩
    · rw [hother k hk]
      exact hJ k v' hmem'
  · -- `Init` or dependency error
    have hmem0 : (ToUpper n, v) ∈ r.apps := GoMap.mem_of_get _ _ _ hg
    have hsome : ∃ err, e = some err := by
      rcases he with ⟨_, he⟩ | ⟨_, name, _, he⟩
      · exact ⟨_, he⟩
      · exact ⟨_, he⟩
    obtain ⟨err, he⟩ := hsome
    subst he
    subst hr
    have hmem : (k, v') ∈ r.apps := hmem'
    show initCallsOf (r.objects.set v.inst app.Init.1) v'.inst = _ ∧ _
    rw [initCallsOf_set_Init r.objects v.inst app hobj]
    by_cases hk : ToUpper n = k
    · subst hk
      have hv : v' = v := by
        have := GoMap.get_of_mem _ hreg.1 _ _ hmem
        rw [hg] at this
        exact (Option.some.inj this).symm
      subst hv
      have hnot : none ∉ outcomesFor ToUpper (ToUpper n) appNames errors := by
        intro c
        have := (hJ _ v' hmem).2.mpr c
        rw [hdis] at this
        cases this
      have hcount := (hJ _ v' hmem).1
      simp only [initCallsOf, hobj, Option.map_some', Option.some.injEq] at hcount
      rw [hself, attemptsUntilSuccess_append_of_not_mem _ _ hnot, if_pos rfl, hcount]
      refine ⟨rfl, ?_⟩
      simp [hdis, hnot]
    · have hne : v'.inst ≠ v.inst := fun c => hk (hinj k v' v hmem hmem0 c)
      rw [if_neg hne, hother k hk]
      exact hJ k v' hmem
  · -- success
    subst he
    have hmem0 : (ToUpper n, v) ∈ r.apps := GoMap.mem_of_get _ _ _ hg
    have hnot : none ∉ outcomesFor ToUpper (ToUpper n) appNames errors := by
      intro c
      have := (hJ _ v hmem0).2.mpr c
      rw [hdis] at this
      cases this
    have hcount := (hJ _ v hmem0).1
    simp only [initCallsOf, hobj, Option.map_some', Option.some.injEq] at hcount
    have happs : r'.apps = GoMap.store r.apps (ToUpper n) { v with enabled := true } := by
      rcases hr with ⟨_, hr⟩ | ⟨t, tp, _, _, _, hr⟩ <;> rw [hr]
    have hobjs : ∀ a, initCallsOf r'.objects a =
        if a = v.inst then some (app.initCalls + 1) else initCallsOf r.objects a := by
      intro a
      rcases hr with ⟨_, hr⟩ | ⟨t, tp, _, _, htp, hr⟩
      · rw [hr]
        exact initCallsOf_set_Init r.objects v.inst app hobj a
      · rw [hr]
        show initCallsOf ((r.objects.set v.inst app.Init.1).set t (tp.SetNext v.inst)) a = _
        rw [initCallsOf_set_eq _ t tp (tp.SetNext v.inst) htp rfl a]
        exact initCallsOf_set_Init r.objects v.inst app hobj a
    rw [happs] at hmem'
    rw [hobjs]
    rcases (GoMap.mem_store_iff r.apps hreg.1 (ToUpper n) k { v with enabled := true } v').mp
      hmem' with ⟨hk, hv⟩ | ⟨hk, hmem⟩
    · subst hk
      subst hv
      rw [hself, attemptsUntilSuccess_append_of_not_mem _ _ hnot, if_pos rfl, hcount]
      exact ⟨rfl, by simp⟩
    · have hk' : ToUpper n ≠ k := fun c => hk c.symm
      have hne : v'.inst ≠ v.inst := fun c => hk' (hinj k v' v hmem hmem0 c)
      rw [if_neg hne, hother k hk']
      exact hJ k v' hmem

theorem initCalls_run (r : Manager) (hreg : RegistryOK ToUpper r) (hch : HoldsChain r [])
    (h0 : ∀ k v, (k, v) ∈ r.apps →
      initCallsOf r.objects v.inst = some 0 ∧ v.enabled = false)
    (appNames : List String) (run : EnableRun)
    (hrun : runEnables ToUpper r appNames = some run) :
    ∀ k v, (k, v) ∈ run.manager.apps →
      initCallsOf run.manager.objects v.inst =
        some (attemptsUntilSuccess (outcomesFor ToUpper k appNames run.errors)) ∧
      (v.enabled = true ↔ none ∈ outcomesFor ToUpper k appNames run.errors) := by
  induction appNames using List.reverseRecOn generalizing run with
  | nil =>
    simp only [runEnables, List.foldl_nil, Option.some.injEq] at hrun
    subst hrun
    intro k v hm
    obtain ⟨hc, hd⟩ := h0 k v hm
    simp [outcomesFor, attemptsUntilSuccess, hc, hd]
  | append_singleton ns n ih =>
    obtain ⟨run0, r1, e, hrun0, hE, hm, he⟩ := runEnables_snoc ToUpper r ns n run hrun
    obtain ⟨run0', hrun0', hr0, _, hlen⟩ := runEnables_invariants ToUpper r hreg hch ns
    rw [hrun0] at hrun0'
    cases hrun0'
    rw [hm, he]
    exact initCalls_step ToUpper run0.manager ns run0.errors hlen hr0 (ih run0 hrun0) n r1 e hE

theorem NewManager_initCalls (specs : List AppSpec) :
    ∀ k v, (k, v) ∈ (NewManager ToUpper specs).apps →
      initCallsOf (NewManager ToUpper specs).objects v.inst = some 0 ∧ v.enabled = false := by
  obtain ⟨hobjs, _, _, hreg, hdis⟩ :=
    register_fold_invariant ToUpper specs (List.range specs.length)
      { apps := [], head := none, tail := none, objects := specs.map AppSpec.New }
      rfl rfl rfl ⟨by simp [GoMap.WF, GoMap.keys], by simp⟩ (by simp)
  intro k v hm
  refine ⟨?_, hdis k v hm⟩
  obtain ⟨p, hp, _⟩ := hreg.2 k v hm
  simp only [NewManager, initCallsOf]
  rw [hp]
  have hmem : p ∈ specs.map AppSpec.New := by
    rw [← hobjs]
    exact List.getElem?_mem hp
  obtain ⟨s0, _, hs0⟩ := List.mem_map.mp hmem
  rw [← hs0]
  rfl

theorem exampleManager_run_b_a_b :
    (runEnables asciiUpper exampleManager ["b", "a", "b"]).map
        (fun run =>
          (run.errors, GoMap.get run.manager.apps "B", initCallsOf run.manager.objects 1)) =
      some ([some (EnableError.checkingDependencies "A"), none, none],
        some ⟨1, true⟩, some 2) := by
  decide

/-- C16 (as stated, refuted): with `b` depending on `a`, the calls `Enable("b")` (dependency
error), `Enable("a")`, `Enable("b")` return and leave `b` enabled after two calls of its `Init`,
so it is not true that the `Init` of every registered application is invoked at most once. -/
theorem C16_Init_invoked_twice :
    ¬ (∀ run, runEnables asciiUpper exampleManager ["b", "a", "b"] = some run →
        ∀ k v c, GoMap.get run.manager.apps k = some v →
          initCallsOf run.manager.objects v.inst = some c → c ≤ 1) := by
  intro h
  have hd := exampleManager_run_b_a_b
  cases hrun : runEnables asciiUpper exampleManager ["b", "a", "b"] with
  | none => simp [hrun] at hd
  | some run =>
    simp only [hrun, Option.map_some', Option.some.injEq, Prod.mk.injEq] at hd
    have := h run hrun "B" ⟨1, true⟩ 2 hd.2.1 hd.2.2
    omega

/-- C16 (amended): over every sequence of `Enable` calls on the manager built by `NewManager`,
every call returns, and for every registered application the number of `Init` calls made on
its instance is the number of `Enable` calls under its name up to and including the first that
returned `nil` (all of them when none did): a call for an application that is not yet enabled
invokes its `Init` once, also when the call then fails, and no call invokes it once the
application is enabled. The application is enabled exactly when one of these calls returned
`nil`, and then its `Init` has been invoked at least once. -/
theorem C16_Init_once_per_attempt (specs : List AppSpec) (appNames : List String) :
    ∃ run, runEnables ToUpper (NewManager ToUpper specs) appNames = some run ∧
      ∀ k v, GoMap.get run.manager.apps k = some v →
        initCallsOf run.manager.objects v.inst =
          some (attemptsUntilSuccess (outcomesFor ToUpper k appNames run.errors)) ∧
        (v.enabled = true ↔ none ∈ outcomesFor ToUpper k appNames run.errors) ∧
        (v.enabled = true →
          1 ≤ attemptsUntilSuccess (outcomesFor ToUpper k appNames run.errors)) ∧
        (none ∉ outcomesFor ToUpper k appNames run.errors →
          attemptsUntilSuccess (outcomesFor ToUpper k appNames run.errors) =
            (outcomesFor ToUpper k appNames run.errors).length) := by
  obtain ⟨hr0, hc0⟩ := NewManager_invariants ToUpper specs
  obtain ⟨run, hrun, _, _, _⟩ := runEnables_invariants ToUpper _ hr0 hc0 appNames
  refine ⟨run, hrun, ?_⟩
  intro k v hg
  obtain ⟨h1, h2⟩ := initCalls_run ToUpper _ hr0 hc0 (NewManager_initCalls ToUpper specs)
    appNames run hrun k v (GoMap.mem_of_get _ _ _ hg)
  refine ⟨h1, h2, fun hen => attemptsUntilSuccess_pos _ (h2.mp hen), ?_⟩
  generalize outcomesFor ToUpper k appNames run.errors = l
  intro hl
  induction l with
  | nil => rfl
  | cons x rest ih =>
    cases x with
    | none => simp at hl
    | some err =>
      have hr : none ∉ rest := fun c => hl (List.mem_cons_of_mem _ c)
      simp [attemptsUntilSuccess, ih hr]

end ManagerRunTheorems

end Cherry

/-! ## Theorems about `query` (`mysql.go`) -/

namespace Cherry

theorem queryLoop_stops (f : Nat → Option DBError) (k : Nat) :
    ∀ fuel deadlockRetry calls, deadlockRetry + k ≤ maxDeadlockRetry → k + 1 ≤ fuel →
      (∀ j, j < k → ∃ err, f (calls + j) = some err ∧ isDeadlock err = true) →
      (deadlockRetry + k = maxDeadlockRetry ∨ f (calls + k) = none ∨
        ∃ err, f (calls + k) = some err ∧ isDeadlock err = false) →
      queryLoop f fuel deadlockRetry calls = some (f (calls + k), calls + k + 1) := by
  induction k with
  | zero =>
    intro fuel deadlockRetry calls _ hfuel _ hstop
    obtain ⟨fuel', rfl⟩ : ∃ m, fuel = m + 1 := ⟨fuel - 1, by omega⟩
    simp only [Nat.add_zero] at hstop ⊢
    cases hf : f calls with
    | none => simp [queryLoop, hf]
    | some err =>
      rcases hstop with h | h | ⟨err', h, hd⟩
      · simp [queryLoop, hf, h]
      · rw [hf] at h
        cases h
      · rw [hf] at h
        cases h
        simp [queryLoop, hf, hd]
  | succ k ih =>
    intro fuel deadlockRetry calls hretry hfuel hdead hstop
    obtain ⟨fuel', rfl⟩ : ∃ m, fuel = m + 1 := ⟨fuel - 1, by omega⟩
    obtain ⟨err, hf, hd⟩ := hdead 0 (by omega)
    simp only [Nat.add_zero] at hf
    have hlt : ¬ deadlockRetry ≥ maxDeadlockRetry := by omega
    have hrec := ih fuel' (deadlockRetry + 1) (calls + 1) (by omega) (by omega)
      (by
        intro j hj
        have := hdead (j + 1) (by omega)
        rwa [show calls + (j + 1) = calls + 1 + j by omega] at this)
      (by
        rw [show calls + 1 + k = calls + (k + 1) by omega]
        rcases hstop with h | h | h
        · exact Or.inl (by omega)
        · exact Or.inr (Or.inl h)
        · exact Or.inr (Or.inr h))
    simp only [queryLoop, hf, hd, hlt, Bool.not_true, decide_False, Bool.or_self,
      Bool.false_eq_true, if_false]
    rw [hrec, show calls + 1 + k = calls + (k + 1) by omega]

theorem query_stop_exists (f : Nat → Option DBError) (d : Nat) :
    ∀ calls, ∃ k, k ≤ d ∧
      (∀ j, j < k → ∃ err, f (calls + j) = some err ∧ isDeadlock err = true) ∧
      (k = d ∨ f (calls + k) = none ∨
        ∃ err, f (calls + k) = some err ∧ isDeadlock err = false) := by
  induction d with
  | zero =>
    intro calls
    exact ⟨0, Nat.le_refl 0, fun j hj => absurd hj (Nat.not_lt_zero j), Or.inl rfl⟩
  | succ d ih =>
    intro calls
    cases hf : f calls with
    | none =>
      exact ⟨0, Nat.zero_le _, fun j hj => absurd hj (Nat.not_lt_zero j), Or.inr (Or.inl hf)⟩
    | some err =>
      cases hd : isDeadlock err with
      | false =>
        exact ⟨0, Nat.zero_le _, fun j hj => absurd hj (Nat.not_lt_zero j),
          Or.inr (Or.inr ⟨err, hf, hd⟩)⟩
      | true =>
        obtain ⟨k, hk, hdead, hstop⟩ := ih (calls + 1)
        refine ⟨k + 1, by omega, ?_, ?_⟩
        · intro j hj
          cases j with
          | zero => exact ⟨err, hf, hd⟩
          | succ j =>
            have := hdead j (by omega)
            rwa [show calls + 1 + j = calls + (j + 1) by omega] at this
        · rw [show calls + (k + 1) = calls + 1 + k by omega]
          rcases hstop with h | h | h
          · exact Or.inl (by omega)
          · exact Or.inr (Or.inl h)
          · exact Or.inr (Or.inr h)

/-- C18: `query(f)` ends whenever the calls of `f` return, within `maxDeadlockRetry + 1 = 6`
iterations: it calls `f` exactly `k + 1` times for some `k ≤ 5` and returns the result of the
last call, where the first `k` calls failed with the MySQL deadlock error (code 1213) and the
last call returned `nil`, or returned an error that is not the deadlock error, or was the sixth
call. So it returns at the first `nil`, at the first error that is not a deadlock, and with the
deadlock error of the sixth call when all six calls fail with a deadlock. -/
theorem C18_query_terminates (f : Nat → Option DBError) (fuel : Nat)
    (hfuel : maxDeadlockRetry + 1 ≤ fuel) :
    (∃ k, k ≤ maxDeadlockRetry ∧ query f fuel = some (f k, k + 1) ∧
      (∀ j, j < k → ∃ err, f j = some err ∧ isDeadlock err = true) ∧
      (k = maxDeadlockRetry ∨ f k = none ∨ ∃ err, f k = some err ∧ isDeadlock err = false)) ∧
    (∀ k, k ≤ maxDeadlockRetry →
      (∀ j, j < k → ∃ err, f j = some err ∧ isDeadlock err = true) →
      (k = maxDeadlockRetry ∨ f k = none ∨ ∃ err, f k = some err ∧ isDeadlock err = false) →
      query f fuel = some (f k, k + 1)) ∧
    ((∀ j, j ≤ maxDeadlockRetry → ∃ err, f j = some err ∧ isDeadlock err = true) →
      query f fuel = some (f maxDeadlockRetry, maxDeadlockRetry + 1)) ∧
    maxDeadlockRetry + 1 = 6 ∧
    (∀ n, isDeadlock (DBError.MySQLError n) = true ↔ n = 1213) ∧
    (∀ t, isDeadlock (DBError.other t) = false) := by
  have hdirect : ∀ k, k ≤ maxDeadlockRetry →
      (∀ j, j < k → ∃ err, f j = some err ∧ isDeadlock err = true) →
      (k = maxDeadlockRetry ∨ f k = none ∨ ∃ err, f k = some err ∧ isDeadlock err = false) →
      query f fuel = some (f k, k + 1) := by
    intro k hk hdead hstop
    have := queryLoop_stops f k fuel 0 0 (by omega) (by omega)
      (by simpa using hdead) (by simpa using hstop)
    simpa [query] using this
  refine ⟨?_, hdirect, ?_, rfl, ?_, fun _ => rfl⟩
  · obtain ⟨k, hk, hdead, hstop⟩ := query_stop_exists f maxDeadlockRetry 0
    simp only [Nat.zero_add] at hdead hstop
    exact ⟨k, hk, hdirect k hk hdead hstop, hdead, hstop⟩
  · intro hall
    exact hdirect maxDeadlockRetry (Nat.le_refl _) (fun j hj => hall j (by omega)) (Or.inl rfl)
  · intro n
    simp [isDeadlock, deadlockErrCode]

theorem C18_query_terminates_witness :
    maxDeadlockRetry + 1 ≤ 6 ∧
    query (fun _ => some (DBError.MySQLError 1213)) 6 =
      some (some (DBError.MySQLError 1213), 6) :=
  ⟨by decide,
    (C18_query_terminates (fun _ => some (DBError.MySQLError 1213)) 6 (by decide)).2.2.1
      (fun _ _ => ⟨DBError.MySQLError 1213, rfl, by decide⟩)⟩

end Cherry

/-! ## Theorems about `addNetworkParam.UnmarshalJSON` (`network.go`) -/

namespace Cherry

theorem cidrBytes_length (l n : Nat) : (cidrBytes l n).length = l := by
  induction l generalizing n with
  | zero => rfl
  | succ l ih =>
    simp only [cidrBytes]
    split <;> simp [ih]

theorem CIDRMask_32 (ones : Nat) (h : ones ≤ 32) :
    CIDRMask ones 32 = some (cidrBytes 4 ones) := by
  have h' : ¬ ones > 32 := by omega
  simp [CIDRMask, h']

/-- The 32-bit masks of the accepted prefix lengths: three bytes `0xff` and the byte
`256 - 2 ^ (32 - ones)`. -/
theorem cidrBytes_accepted (ones : Nat) (h1 : 24 ≤ ones) (h2 : ones ≤ 30) :
    cidrBytes 4 ones = [255, 255, 255, 256 - 2 ^ (32 - ones)] := by
  have : ones = 24 ∨ ones = 25 ∨ ones = 26 ∨ ones = 27 ∨ ones = 28 ∨ ones = 29 ∨ ones = 30 := by
    omega
  rcases this with h | h | h | h | h | h | h <;> subst h <;> decide

/-- What `UnmarshalJSON` accepts, and what the receiver then holds. -/
theorem UnmarshalJSON_ok_iff {J : Type} (jsonUnmarshal : String → Except J addNetworkJSON)
    (ParseIP : String → Option (List Nat)) (data : String) (p : addNetworkParam) :
    UnmarshalJSON jsonUnmarshal ParseIP data = Except.ok p ↔
      ∃ v addr, jsonUnmarshal data = Except.ok v ∧ v.SessionID.utf8ByteSize = 64 ∧
        ParseIP v.Address = some addr ∧ 24 ≤ v.Mask ∧ v.Mask ≤ 30 ∧
        p = { SessionID := v.SessionID
              Mask := some (cidrBytes 4 v.Mask)
              Address := ipMask addr (cidrBytes 4 v.Mask) } := by
  constructor
  · intro h
    unfold UnmarshalJSON at h
    split at h
    · cases h
    · rename_i v hv
      split at h
      · cases h
      · rename_i hs
        split at h
        · cases h
        · rename_i addr hp
          split at h
          · cases h
          · rename_i hm
            have hle : v.Mask ≤ 32 := by omega
            simp only [CIDRMask_32 v.Mask hle, Option.getD_some, Except.ok.injEq] at h
            exact ⟨v, addr, hv, by simpa using hs, hp, by omega, by omega, h.symm⟩
  · rintro ⟨v, addr, hj, hs, hp, h1, h2, rfl⟩
    have hm : ¬ (v.Mask < 24 ∨ v.Mask > 30) := by omega
    have hle : v.Mask ≤ 32 := by omega
    simp [UnmarshalJSON, hj, hs, hp, hm, CIDRMask_32 v.Mask hle]

/-- On an IPv4 address in 16-byte form the accepted payload gives the 4-byte network address:
every byte of the address masked with the byte of the mask, and masking again changes
nothing. -/
theorem ipMask_v4 (a b c d ones : Nat) (h1 : 24 ≤ ones) (h2 : ones ≤ 30) :
    ipMask (v4InV6Prefix ++ [a, b, c, d]) (cidrBytes 4 ones) =
      some [a &&& 255, b &&& 255, c &&& 255, d &&& (256 - 2 ^ (32 - ones))] ∧
    ipMask [a &&& 255, b &&& 255, c &&& 255, d &&& (256 - 2 ^ (32 - ones))]
        (cidrBytes 4 ones) =
      some [a &&& 255, b &&& 255, c &&& 255, d &&& (256 - 2 ^ (32 - ones))] := by
  rw [cidrBytes_accepted ones h1 h2]
  constructor
  · simp [ipMask, v4InV6Prefix, allFF]
  · simp [ipMask, v4InV6Prefix, allFF, Nat.land_assoc]

/-- C19 (the defect): the method accepts a payload whose address `net.ParseIP` parses to a
16-byte address that is not an IPv4 address (an IPv6 address): with a 64-byte session id and a
prefix length from 24 to 30 it returns `nil` and leaves the receiver with the 4-byte mask and a
nil `Address`. -/
theorem C19_UnmarshalJSON_ipv6_nil_address {J : Type}
    (jsonUnmarshal : String → Except J addNetworkJSON) (ParseIP : String → Option (List Nat))
    (data : String) (v : addNetworkJSON) (addr : List Nat)
    (hjson : jsonUnmarshal data = Except.ok v) (hsid : v.SessionID.utf8ByteSize = 64)
    (hparse : ParseIP v.Address = some addr) (hlen : addr.length = 16)
    (hv6 : addr.take 12 ≠ v4InV6Prefix) (hmin : 24 ≤ v.Mask) (hmax : v.Mask ≤ 30) :
    UnmarshalJSON jsonUnmarshal ParseIP data =
      Except.ok { SessionID := v.SessionID
                  Mask := some [255, 255, 255, 256 - 2 ^ (32 - v.Mask)]
                  Address := none } := by
  rw [UnmarshalJSON_ok_iff]
  refine ⟨v, addr, hjson, hsid, hparse, hmin, hmax, ?_⟩
  have hnil : ipMask addr (cidrBytes 4 v.Mask) = none := by
    simp [ipMask, cidrBytes_length, hlen, hv6]
  rw [hnil, cidrBytes_accepted v.Mask hmin hmax]

theorem C19_UnmarshalJSON_ipv6_nil_address_witness :
    exampleUnmarshal examplePayload =
      Except.ok { SessionID := exampleSessionID, Address := "::1", Mask := 24 } ∧
    exampleSessionID.utf8ByteSize = 64 ∧
    exampleParseIP "::1" = some (List.replicate 15 0 ++ [1]) ∧
    (List.replicate 15 0 ++ [1]).length = 16 ∧
    (List.replicate 15 0 ++ [1]).take 12 ≠ v4InV6Prefix ∧
    UnmarshalJSON exampleUnmarshal exampleParseIP examplePayload =
      Except.ok { SessionID := exampleSessionID
                  Mask := some [255, 255, 255, 256 - 2 ^ (32 - 24)]
                  Address := none } :=
  ⟨rfl, by decide, by decide, by decide, by decide,
    C19_UnmarshalJSON_ipv6_nil_address exampleUnmarshal exampleParseIP examplePayload
      { SessionID := exampleSessionID, Address := "::1", Mask := 24 }
      (List.replicate 15 0 ++ [1]) rfl (by decide) (by decide) (by decide) (by decide)
      (by decide) (by decide)⟩

end Cherry
